import Mathlib

/-!
Verification of the `function-schema-decorator` repository's core:
the type-to-schema translation engine (`type2schema`, `get_parameters`,
`generate_function_schema` in `src/llm_codebridge/core.py`, mirrored in
`src/oai_tool/schema_generation.py`), the schema-shape linter
(`validate_schema` in `src/oai_tool/validation.py`) and the pydantic-based
response validator (`create_model_from_schema`, `validate_llm_response`
in `src/llm_codebridge/core.py`).

Python dictionaries are modelled as ordered association lists with
replace-in-place-or-append assignment; Python exceptions are modelled
with `Except`.
-/

namespace LCB

/-- JSON-compatible values (the shapes the repository's schemas and
candidate response data are built from). Numbers are integers: every
numeric literal appearing in the claims is integral. -/
inductive JVal where
  | null : JVal
  | bool : Bool → JVal
  | int : Int → JVal
  | str : String → JVal
  | arr : List JVal → JVal
  | obj : List (String × JVal) → JVal

/-- An ordered Python dict with string keys. -/
abbrev Node := List (String × JVal)

/-- `d.get(key)` — first binding wins (keys are unique in practice). -/
def getVal : Node → String → Option JVal
  | [], _ => none
  | (k, v) :: rest, key => if k = key then some v else getVal rest key

/-- `d[key] = v` — replace in place if the key exists, else append
(CPython dict insertion-order semantics). -/
def setKey : Node → String → JVal → Node
  | [], key, v => [(key, v)]
  | (k, w) :: rest, key, v =>
      if k = key then (k, v) :: rest else (k, w) :: setKey rest key v

/-- `key in d`. -/
def hasKey (n : Node) (k : String) : Bool := (getVal n k).isSome

/-- A value looked up in a dict is structurally smaller than the dict
(used for termination of the recursive schema-shape check). -/
theorem sizeOf_getVal : ∀ (n : Node) (k : String) (v : JVal),
    getVal n k = some v → sizeOf v < sizeOf n := by
  intro n k v h
  induction n with
  | nil => simp [getVal] at h
  | cons hd tl ih =>
      obtain ⟨k2, w⟩ := hd
      simp only [getVal] at h
      by_cases hk : k2 = k
      · simp [hk] at h
        subst h
        simp
        omega
      · simp [hk] at h
        have := ih h
        simp
        omega

/-- A single pydantic validation error entry, as in the items of
`ValidationError.errors()`: error type, location path, message. -/
structure PErr where
  etype : String
  loc : List String
  msg : String
deriving Repr, DecidableEq

/-- Python exceptions that the modelled code can raise. -/
inductive PyExc where
  | keyError : String → PyExc
  | typeError : String → PyExc
  | validationError : List PErr → PyExc
deriving Repr, DecidableEq

/-- The four primitive kinds of the data model (§3 of the spec); the
source's `issubclass` chain (bool before int) makes them disjoint. -/
inductive PrimKind where
  | boolean | string | integer | number
deriving Repr, DecidableEq

/-- One entry of `FieldInfo.metadata`: a numeric bound constraint object
(`annotated_types.Gt/Ge/Lt/Le`); `hasattr(meta, "gt")` etc. in the source
discriminates them, each carrying exactly one attribute. -/
inductive BoundMeta where
  | gt : Int → BoundMeta
  | ge : Int → BoundMeta
  | lt : Int → BoundMeta
  | le : Int → BoundMeta
deriving Repr, DecidableEq

/-- `pydantic.fields.FieldInfo` as the source consumes it: an optional
description plus the ordered constraint-metadata list. -/
structure FieldMeta where
  descr : Option String
  bounds : List BoundMeta
deriving Repr, DecidableEq

/-- Type descriptors: the runtime type-annotation shapes `type2schema`
dispatches on.  `ann` is an `Annotated[base, Field(...)]` wrapper (Python
flattens nested `Annotated`, so a wellformed `ann` never wraps an `ann`);
`union` is `Union[...]`/`Optional[...]` with its flattened argument
list (`Optional[X]` is `union [X, noneType]`); `noneType` is `type(None)`
as a union member; `rawClass` is a bare class that is none of
bool/str/int/float/BaseModel/Enum; `unsupportedGeneric` is a parameterized
alias whose origin is none of Literal/list/Union (e.g. `Tuple[int, str]`,
`Set[int]`). -/
inductive Descriptor where
  | prim : PrimKind → Descriptor
  | lit : List String → Descriptor
  | enumType : List String → Descriptor
  | record : Option String → List (String × Option String × Descriptor) → Descriptor
  | listOf : Descriptor → Descriptor
  | union : List Descriptor → Descriptor
  | noneType : Descriptor
  | rawClass : Descriptor
  | unsupportedGeneric : Descriptor
  | ann : FieldMeta → Descriptor → Descriptor

/-- Python truthy-or-else on an optional string (`x or fallback`:
`None` and `""` are falsy). -/
def descOr : Option String → String → String
  | some s, fallback => if s = "" then fallback else s
  | none, fallback => fallback

/-- One iteration of the constraint-merging loop of `type2schema`
(core.py lines 224-233): `gt → exclusiveMinimum`, `ge → minimum`,
`lt → exclusiveMaximum`, `le → maximum`. -/
def applyBound (n : Node) : BoundMeta → Node
  | .gt v => setKey n "exclusiveMinimum" (.int v)
  | .ge v => setKey n "minimum" (.int v)
  | .lt v => setKey n "exclusiveMaximum" (.int v)
  | .le v => setKey n "maximum" (.int v)

/-- The whole `for meta in field_info.metadata` merging loop. -/
def mergeBounds (n : Node) (bs : List BoundMeta) : Node := bs.foldl applyBound n

/-- `arg is type(None)`. -/
def isNoneType : Descriptor → Bool
  | .noneType => true
  | _ => false

mutual

/-- `type2schema` (core.py lines 176-235; identically in
oai_tool/schema_generation.py lines 45-110).  Dispatch mirrors the
source: Literal, then the `isinstance(base_type, type)` chain
(bool/str/int-not-bool/float/BaseModel/Enum — a bare class matching none
of these leaves `schema = {}`), then `list`, then `Union` (the 2-arm
null union becomes the inner schema plus `nullable: true`; otherwise a
`oneOf` of all arguments), else `raise TypeError`.  Afterwards any
attached `FieldInfo.metadata` bounds are merged in. -/
def type2schema : Descriptor → Except PyExc Node
  | .ann meta base => do
      let schema ← type2schema base
      pure (mergeBounds schema meta.bounds)
  | .lit vals => pure [("type", .str "string"), ("enum", .arr (vals.map JVal.str))]
  | .prim .boolean => pure [("type", .str "boolean")]
  | .prim .string => pure [("type", .str "string")]
  | .prim .integer => pure [("type", .str "integer")]
  | .prim .number => pure [("type", .str "number")]
  | .record doc fields => do
      let props ← schemaFields fields
      pure [("type", .str "object"), ("properties", .obj props),
            ("description", .str (descOr doc ""))]
  | .enumType vals => pure [("type", .str "string"), ("enum", .arr (vals.map JVal.str))]
  | .listOf el => do
      let n ← type2schema el
      pure [("type", .str "array"), ("items", .obj n)]
  | .union [a, b] =>
      if isNoneType b then do
        let n ← type2schema a
        pure (setKey n "nullable" (.bool true))
      else if isNoneType a then do
        let n ← type2schema b
        pure (setKey n "nullable" (.bool true))
      else do
        let l ← schemaList [a, b]
        pure [("oneOf", .arr l)]
  | .union args => do
      let l ← schemaList args
      pure [("oneOf", .arr l)]
  | .noneType => pure []
  | .rawClass => pure []
  | .unsupportedGeneric => .error (.typeError "Unsupported type")

/-- The `properties` comprehension of the BaseModel branch: each field's
schema with the field's `description or prop_name` merged in. -/
def schemaFields : List (String × Option String × Descriptor) → Except PyExc Node
  | [] => pure []
  | (name, fdesc, d) :: rest => do
      let n ← type2schema d
      let tail ← schemaFields rest
      pure ((name, JVal.obj (setKey n "description" (.str (descOr fdesc name)))) :: tail)

/-- The `oneOf` list comprehension `[type2schema(arg) for arg in args]`. -/
def schemaList : List Descriptor → Except PyExc (List JVal)
  | [] => pure []
  | d :: rest => do
      let n ← type2schema d
      let tail ← schemaList rest
      pure (JVal.obj n :: tail)

end

/-- `extract_annotation_metadata` (core.py lines 167-173): the first
`FieldInfo` among an `Annotated` wrapper's metadata, else `None`. -/
def extract_ann_meta : Descriptor → Option FieldMeta
  | .ann m _ => some m
  | _ => none

/-- `get_parameter_json_schema` (core.py lines 144-158): the parameter's
`type2schema`, plus its default when present, plus a description that
falls back to the parameter name. -/
def get_parameter_json_schema (k : String) (v : Descriptor)
    (default_values : Node) : Except PyExc Node := do
  let schema ← type2schema v
  let schema :=
    match getVal default_values k with
    | some dv => setKey schema "default" dv
    | none => schema
  let schema :=
    match extract_ann_meta v with
    | some m =>
        match m.descr with
        | some d =>
            if d = "" then setKey schema "description" (.str k)
            else setKey schema "description" (.str d)
        | none => setKey schema "description" (.str k)
    | none => setKey schema "description" (.str k)
  pure schema

/-- One parameter of an inspected signature: name, annotation (absent
models `inspect.Signature.empty`), default value (absent models
`inspect.Signature.empty`). -/
structure Param where
  name : String
  pann : Option Descriptor
  dflt : Option JVal

/-- `get_required_params` (core.py lines 102-107): names whose default is
the empty sentinel, in declaration order. -/
def get_required_params (params : List Param) : List String :=
  (params.filter (fun p => p.dflt.isNone)).map (·.name)

/-- `get_default_values` (core.py lines 110-115). -/
def get_default_values (params : List Param) : Node :=
  params.filterMap (fun p => p.dflt.map (fun d => (p.name, d)))

/-- `get_param_annotations` (core.py lines 118-125): the ordered mapping
of annotated parameters (unannotated ones are dropped). -/
def get_param_anns (params : List Param) : List (String × Descriptor) :=
  params.filterMap (fun p => p.pann.map (fun d => (p.name, d)))

/-- The `properties` comprehension inside `get_parameters`. -/
def paramsProps : List (String × Descriptor) → Node → Except PyExc Node
  | [], _ => pure []
  | (k, v) :: rest, default_values => do
      let n ← get_parameter_json_schema k v default_values
      let tail ← paramsProps rest default_values
      pure ((k, JVal.obj n) :: tail)

/-- `get_parameters` (core.py lines 128-141). -/
def get_parameters (required : List String)
    (param_anns : List (String × Descriptor))
    (default_values : Node) : Except PyExc Node := do
  let props ← paramsProps param_anns default_values
  pure [("type", .str "object"), ("properties", .obj props),
        ("required", .arr (required.map JVal.str))]

/-- `generate_function_schema` (core.py lines 18-62).  `nameArg` and
`descArg` are the keyword overrides; `fnName`/`fnDoc` are
`f.__name__`/`f.__doc__`; `isAsync` is `inspect.iscoroutinefunction(f)`;
when `isMethod` the `self`/`cls` entries are dropped from the three
collections. -/
def generate_function_schema (nameArg : Option String) (fnName : String)
    (descArg : Option String) (fnDoc : Option String)
    (isAsync : Bool) (isMethod : Bool)
    (params : List Param) : Except PyExc JVal := do
  let required := get_required_params params
  let default_values := get_default_values params
  let param_anns := get_param_anns params
  let fname := descOr nameArg fnName
  let fdescription := descOr descArg (descOr fnDoc "")
  let required :=
    if isMethod then required.filter (fun r => r ≠ "self" ∧ r ≠ "cls") else required
  let param_anns :=
    if isMethod then param_anns.filter (fun p => p.1 ≠ "self" ∧ p.1 ≠ "cls")
    else param_anns
  let default_values :=
    if isMethod then default_values.filter (fun p => p.1 ≠ "self" ∧ p.1 ≠ "cls")
    else default_values
  let parameters ← get_parameters required param_anns default_values
  let function_schema : Node :=
    [("name", .str fname), ("description", .str fdescription),
     ("parameters", .obj parameters)]
  let function_schema :=
    if isAsync then setKey function_schema "async" (.bool true)
    else function_schema
  pure (.obj [("type", .str "function"), ("function", .obj function_schema)])

/-- The inner `check_properties` of `validate_schema`
(oai_tool/validation.py lines 34-64).  A property carrying `oneOf` needs
every option to be a node with a `type` and the property itself to carry
a `description`; otherwise the property needs `type` and `description`,
`object`-typed properties need a nested `properties` dict (checked
recursively), `array`-typed properties need a dict `items` whose node has
a `type`.  Shapes on which the Python code would raise (a non-dict
property, a non-list `oneOf`, a non-dict `oneOf` option) are modelled as
thrown `TypeError`s; they cannot arise from Builder output. -/
def check_properties : Node → Except PyExc Bool
  | [] => pure true
  | (_, details) :: rest =>
      match details with
      | .obj d =>
          if hasKey d "oneOf" then
            match getVal d "oneOf" with
            | some (.arr options) =>
                if options.all (fun o =>
                    match o with
                    | .obj oo => hasKey oo "type" && hasKey d "description"
                    | _ => false) then
                  check_properties rest
                else pure false
            | _ => .error (.typeError "oneOf value is not iterable of dicts")
          else
            if hasKey d "type" && hasKey d "description" then
              match getVal d "type" with
              | some (.str "object") =>
                  match h : getVal d "properties" with
                  | some (.obj props) => do
                      let b ← check_properties props
                      if b then check_properties rest else pure false
                  | some _ => pure false
                  | none => pure false
              | some (.str "array") =>
                  match getVal d "items" with
                  | some (.obj items) =>
                      if hasKey items "type" && hasKey d "description" then
                        check_properties rest
                      else pure false
                  | some _ => pure false
                  | none => pure false
              | _ => check_properties rest
            else pure false
      | _ => .error (.typeError "property details is not a dict")
  termination_by props => sizeOf props
  decreasing_by
    all_goals simp_wf
    all_goals try omega
    · have h2 := sizeOf_getVal _ _ _ h
      simp at h2
      omega

/-- `validate_schema` (oai_tool/validation.py lines 10-70), the
schema-shape linter.  Accesses that would raise in Python (`.keys()` on a
non-dict, `parameters["type"]` missing or on a non-dict) are modelled as
errors; they cannot arise from Builder output. -/
def validate_schema (schema : JVal) : Except PyExc Bool :=
  match schema with
  | .obj s =>
      if hasKey s "type" && hasKey s "function" then
        match getVal s "function" with
        | some (.obj f) =>
            if hasKey f "name" && hasKey f "description" && hasKey f "parameters" then
              match getVal f "parameters" with
              | some (.obj p) =>
                  match getVal p "type" with
                  | some (.str "object") =>
                      match getVal p "properties" with
                      | some (.obj props) =>
                          match getVal p "required" with
                          | some (.arr _) => check_properties props
                          | some _ => pure false
                          | none => pure false
                      | some _ => pure false
                      | none => pure false
                  | some _ => pure false
                  | none => .error (.keyError "type")
              | some _ => .error (.typeError "parameters is not a dict")
              | none => pure false
            else pure false
        | some _ => .error (.typeError "function is not a dict")
        | none => pure false
      else pure false
  | _ => .error (.typeError "schema is not a dict")

/-- The Python types `TYPE_MAPPING` maps schema type names onto. -/
inductive PyType where
  | pstr | pint | pfloat | pbool | plist | pdict
deriving Repr, DecidableEq

/-- `TYPE_MAPPING` (core.py lines 8-15). -/
def TYPE_MAPPING : List (String × PyType) :=
  [("string", .pstr), ("integer", .pint), ("number", .pfloat),
   ("boolean", .pbool), ("array", .plist), ("object", .pdict)]

/-- `TYPE_MAPPING[name]` — `KeyError` when absent. -/
def typeMappingGet (name : String) : Except PyExc PyType :=
  match (TYPE_MAPPING.filter (fun e => e.1 = name)).head? with
  | some e => pure e.2
  | none => .error (.keyError name)

/-- One field of the dynamically created pydantic model: its Python type
and whether its default is `...` (required) or `None`. -/
structure ModelField where
  fname : String
  ftype : PyType
  required : Bool
deriving Repr, DecidableEq

/-- The body of the field-building loop of `create_model_from_schema`
for one property: `TYPE_MAPPING[value["type"]]` plus the
`... if key in required_fields else None` default. -/
def model_field_of_prop (required : List JVal) (kv : String × JVal) :
    Except PyExc ModelField :=
  match kv.2 with
  | .obj value => do
      let tname ←
        match getVal value "type" with
        | some (.str t) => pure t
        | some _ => .error (.typeError "unhashable type key")
        | none => .error (.keyError "type")
      let ftype ← typeMappingGet tname
      pure { fname := kv.1, ftype := ftype,
             required := required.any (fun v =>
               match v with
               | .str t => t = kv.1
               | _ => false) : ModelField }
  | _ => .error (.typeError "property value is not subscriptable")

/-- `create_model_from_schema` (core.py lines 71-85).  Each property
contributes a field typed `TYPE_MAPPING[value["type"]]` — a `KeyError`
escapes when the property has no `type` key (e.g. a `oneOf` node) or an
unmapped `type`; every other schema key (`minimum`, `maximum`, `enum`,
nested `properties`, `items`, ...) is discarded.  The model name
`function_schema["name"] + "Model"` is looked up but has no behavioural
effect. -/
def create_model_from_schema (schema : JVal) : Except PyExc (List ModelField) :=
  match schema with
  | .obj s =>
      match getVal s "function" with
      | some (.obj f) =>
          match getVal f "parameters" with
          | some (.obj p) => do
              let requiredJ := (getVal p "required").getD (.arr [])
              let required ←
                match requiredJ with
                | .arr l => pure l
                | _ => .error (.typeError "required is not a list")
              let props ←
                match getVal p "properties" with
                | some (.obj props) => pure props
                | some _ => .error (.typeError "properties is not a dict")
                | none => .error (.keyError "properties")
              let fields ← props.mapM (model_field_of_prop required)
              match getVal f "name" with
              | some _ => pure fields
              | none => .error (.keyError "name")
          | some _ => .error (.typeError "parameters is not subscriptable")
          | none => .error (.keyError "parameters")
      | some _ => .error (.typeError "function is not subscriptable")
      | none => .error (.keyError "function")
  | _ => .error (.typeError "schema is not subscriptable")

/-- The slice of pydantic v2 type acceptance the claims exercise: exact
type match, with the only lossless cross-type coercion being int-where-
float-expected.  (Lax-mode string/number coercions are irrelevant to the
claims and not modelled.) -/
def checkType : PyType → JVal → Bool
  | .pstr, .str _ => true
  | .pint, .int _ => true
  | .pbool, .bool _ => true
  | .plist, .arr _ => true
  | .pdict, .obj _ => true
  | .pfloat, .int _ => true
  | _, _ => false

/-- A human-readable pydantic message for a type mismatch. -/
def mismatchMsg : PyType → String
  | .pstr => "Input should be a valid string"
  | .pint => "Input should be a valid integer"
  | .pfloat => "Input should be a valid number"
  | .pbool => "Input should be a valid boolean"
  | .plist => "Input should be a valid list"
  | .pdict => "Input should be a valid dictionary"

/-- `response_model(**response)` followed by `model_dump()`: keyword
expansion requires a mapping (`TypeError` otherwise); each declared field
is taken from the candidate (type-checked) or defaulted (`None` when not
required, a `missing` violation when required); extra candidate keys are
ignored (pydantic's default open-world policy); all violations are
aggregated into one `ValidationError`. -/
def pyModelInit (fields : List ModelField) (response : JVal) :
    Except PyExc Node :=
  match response with
  | .obj r =>
      let step := fields.map (fun f =>
        match getVal r f.fname with
        | some v =>
            if checkType f.ftype v then Sum.inl (f.fname, v)
            else Sum.inr { etype := "type_error", loc := [f.fname],
                           msg := mismatchMsg f.ftype : PErr }
        | none =>
            if f.required then
              Sum.inr { etype := "missing", loc := [f.fname],
                        msg := "Field required" : PErr }
            else Sum.inl (f.fname, .null))
      let errs := step.filterMap (fun x =>
        match x with | Sum.inr e => some e | Sum.inl _ => none)
      if errs.isEmpty then
        pure (step.filterMap (fun x =>
          match x with | Sum.inl kv => some kv | Sum.inr _ => none))
      else .error (.validationError errs)
  | _ => .error (.typeError "argument after ** must be a mapping")

/-- The structured outcome of `validate_llm_response`: `(True, data)` or
`(False, e.errors())`. -/
inductive VOutcome where
  | valid : Node → VOutcome
  | invalid : List PErr → VOutcome

/-- `validate_llm_response` (core.py lines 88-99): build the pydantic
model from the schema and validate the response with it; only
`ValidationError` is caught and turned into a `(False, errors)` result —
any other exception propagates to the caller. -/
def validate_llm_response (response : JVal) (expected_schema : JVal) :
    Except PyExc VOutcome :=
  match (do
    let fields ← create_model_from_schema expected_schema
    pyModelInit fields response : Except PyExc Node) with
  | .ok data => .ok (.valid data)
  | .error (.validationError errs) => .ok (.invalid errs)
  | .error e => .error e

/-! ### Descriptor classification predicates -/

/-- Strip a single `Annotated` wrapper (`extract_annotated_type`,
core.py lines 161-164). -/
def stripAnn : Descriptor → Descriptor
  | .ann _ d => d
  | d => d

/-- Is the descriptor a `Union[...]` alias? -/
def isUnionD : Descriptor → Bool
  | .union _ => true
  | _ => false

/-- Is the descriptor an `Annotated[...]` wrapper? -/
def isAnnD : Descriptor → Bool
  | .ann _ _ => true
  | _ => false

/-- Does `type2schema` send the descriptor to the `oneOf` branch?  True
exactly for unions other than the two-argument null union. -/
def producesOneOf : Descriptor → Bool
  | .union [a, b] => !(isNoneType a || isNoneType b)
  | .union _ => true
  | _ => false

mutual

/-- The descriptor is built only from the recognized shapes of the data
model (§3 of the spec): primitives, literal sets, enums, records, lists,
unions (with the null type allowed only as a union member).  Bare
unrecognized classes and unrecognized generic aliases are excluded. -/
def Supported : Descriptor → Bool
  | .prim _ => true
  | .lit _ => true
  | .enumType _ => true
  | .record _ fields => SupportedFields fields
  | .listOf d => Supported d
  | .union args => SupportedArgs args
  | .noneType => false
  | .rawClass => false
  | .unsupportedGeneric => false
  | .ann _ d => Supported d

def SupportedFields : List (String × Option String × Descriptor) → Bool
  | [] => true
  | (_, _, d) :: rest => Supported d && SupportedFields rest

def SupportedArgs : List Descriptor → Bool
  | [] => true
  | a :: rest => (isNoneType a || Supported a) && SupportedArgs rest

end

mutual

/-- The descriptor is representable as a Python annotation shaped per the
data model: union argument lists are flattened (no direct union inside a
union) and deduplicated (at most one null member) with at least two
members, constraint metadata wraps a non-union, non-null descriptor, and
`Annotated` wrappers are flattened (no direct nesting). -/
def Wf : Descriptor → Bool
  | .prim _ => true
  | .lit _ => true
  | .enumType _ => true
  | .record _ fields => WfFields fields
  | .listOf d => Wf d
  | .union args =>
      decide (2 ≤ args.length) &&
      decide ((args.filter isNoneType).length ≤ 1) &&
      WfArgs args
  | .noneType => false
  | .rawClass => true
  | .unsupportedGeneric => true
  | .ann _ d => !isUnionD d && !isAnnD d && !isNoneType d && Wf d

def WfFields : List (String × Option String × Descriptor) → Bool
  | [] => true
  | (_, _, d) :: rest => Wf d && WfFields rest

def WfArgs : List Descriptor → Bool
  | [] => true
  | a :: rest => (isNoneType a || (!isUnionD a && Wf a)) && WfArgs rest

end

mutual

/-- The descriptor's schema survives the `validate_schema` lint: no list
whose element schema is a `oneOf` node (the lint demands a `type` inside
`items`), and no null member inside a `oneOf`-producing union (the null
member's schema is `{}`, which lacks the `type` the lint demands of every
`oneOf` option).  Nested record fields are checked recursively because
the lint recurses into `object` properties; `oneOf` options and `items`
are not recursed into by the lint. -/
def VFriendly : Descriptor → Bool
  | .prim _ => true
  | .lit _ => true
  | .enumType _ => true
  | .record _ fields => VFriendlyFields fields
  | .listOf d => !producesOneOf (stripAnn d)
  | .union [a, b] =>
      if isNoneType b then VFriendly a
      else if isNoneType a then VFriendly b
      else true
  | .union args => VFriendlyArgs args
  | .noneType => false
  | .rawClass => false
  | .unsupportedGeneric => false
  | .ann _ d => VFriendly d

def VFriendlyFields : List (String × Option String × Descriptor) → Bool
  | [] => true
  | (_, _, d) :: rest => VFriendly d && VFriendlyFields rest

def VFriendlyArgs : List Descriptor → Bool
  | [] => true
  | a :: rest => !isNoneType a && VFriendlyArgs rest

end

/-! ### Schema-tree predicates -/

/-- Does the value look like `{..., "type": ..., ...}`? -/
def isObjWithType : JVal → Bool
  | .obj oo => hasKey oo "type"
  | _ => false

/-- Any `enum` key maps to a list of strings. -/
def enumPred (n : Node) : Bool :=
  match getVal n "enum" with
  | some (.arr vs) =>
      vs.all (fun v => match v with | .str _ => true | _ => false)
  | some _ => false
  | none => true

/-- A `nullable` key appears only alongside a `type` key. -/
def nullablePred (n : Node) : Bool := !hasKey n "nullable" || hasKey n "type"

mutual

/-- The shape `check_properties` demands of a single property node,
minus the top-level `description` requirement (descriptions are attached
by `get_parameter_json_schema` and by the BaseModel branch, not by
`type2schema` itself): either a `oneOf` whose every option is a node
with a `type`, or a `type` — with `object` nodes carrying a dict
`properties` of good, described nodes, and `array` nodes carrying a
dict `items` with a `type`. -/
inductive NGood : Node → Prop where
  | oneOfCase : ∀ n options, getVal n "oneOf" = some (.arr options) →
      (∀ o ∈ options, isObjWithType o = true) → NGood n
  | primCase : ∀ n t, getVal n "oneOf" = none →
      getVal n "type" = some (.str t) → t ≠ "object" → t ≠ "array" → NGood n
  | objCase : ∀ n props, getVal n "oneOf" = none →
      getVal n "type" = some (.str "object") →
      getVal n "properties" = some (.obj props) →
      (∀ kv ∈ props, NGoodVal kv.2) → NGood n
  | arrCase : ∀ n items, getVal n "oneOf" = none →
      getVal n "type" = some (.str "array") →
      getVal n "items" = some (.obj items) →
      hasKey items "type" = true → NGood n

/-- A property value inside an `object` node: a good node carrying a
`description`. -/
inductive NGoodVal : JVal → Prop where
  | mk : ∀ m, NGood m → hasKey m "description" = true → NGoodVal (JVal.obj m)

end

/-! ### Dictionary lemmas -/

theorem getVal_setKey (n : Node) (k : String) (v : JVal) (k2 : String) :
    getVal (setKey n k v) k2 = if k = k2 then some v else getVal n k2 := by
  induction n with
  | nil =>
      by_cases h : k = k2 <;> simp [setKey, getVal, h]
  | cons hd tl ih =>
      obtain ⟨k1, w⟩ := hd
      by_cases h1 : k1 = k
      · subst h1
        by_cases h2 : k1 = k2 <;> simp [setKey, getVal, h2]
      · by_cases h2 : k1 = k2
        · have h3 : k ≠ k2 := fun hc => h1 (h2.trans hc.symm)
          simp [setKey, getVal, h1, h2, h3, Ne.symm h3]
        · by_cases h3 : k = k2
          · subst h3
            simp [setKey, getVal, h1, h2, ih]
          · simp [setKey, getVal, h1, h2, h3, ih]

theorem hasKey_setKey (n : Node) (k : String) (v : JVal) (k2 : String) :
    hasKey (setKey n k v) k2 = (decide (k = k2) || hasKey n k2) := by
  by_cases h : k = k2 <;> simp [hasKey, getVal_setKey, h]

/-- The bound-merging loop touches only the four bound keys. -/
theorem getVal_mergeBounds (bs : List BoundMeta) (n : Node) (k : String)
    (h1 : k ≠ "exclusiveMinimum") (h2 : k ≠ "minimum")
    (h3 : k ≠ "exclusiveMaximum") (h4 : k ≠ "maximum") :
    getVal (mergeBounds n bs) k = getVal n k := by
  induction bs generalizing n with
  | nil => simp [mergeBounds]
  | cons b rest ih =>
      have hstep : mergeBounds n (b :: rest) = mergeBounds (applyBound n b) rest := rfl
      rw [hstep, ih]
      cases b <;>
        simp [applyBound, getVal_setKey, Ne.symm h1, Ne.symm h2, Ne.symm h3, Ne.symm h4]

/-- Member-wise structural induction over descriptors (record fields and
union arguments are reached through list membership). -/
def descriptor_ind (motive : Descriptor → Prop)
    (hprim : ∀ k, motive (.prim k))
    (hlit : ∀ vs, motive (.lit vs))
    (henum : ∀ vs, motive (.enumType vs))
    (hrecord : ∀ doc fields, (∀ x ∈ fields, motive x.2.2) →
        motive (.record doc fields))
    (hlist : ∀ el, motive el → motive (.listOf el))
    (hunion : ∀ args, (∀ a ∈ args, motive a) → motive (.union args))
    (hnone : motive .noneType)
    (hraw : motive .rawClass)
    (hunsup : motive .unsupportedGeneric)
    (hann : ∀ m d, motive d → motive (.ann m d)) :
    ∀ d, motive d := go
where
  go : ∀ d, motive d
    | .prim k => hprim k
    | .lit vs => hlit vs
    | .enumType vs => henum vs
    | .record doc fields => hrecord doc fields (fun x hx => go x.2.2)
    | .listOf el => hlist el (go el)
    | .union args => hunion args (fun a ha => go a)
    | .noneType => hnone
    | .rawClass => hraw
    | .unsupportedGeneric => hunsup
    | .ann m d => hann m d (go d)
  termination_by d => sizeOf d
  decreasing_by
    · obtain ⟨a, b, c⟩ := x
      have hy := List.sizeOf_lt_of_mem hx
      simp at hy ⊢
      omega
    · simp
    · have hy := List.sizeOf_lt_of_mem ha
      simp
      omega
    · simp

/-! ### Pointwise views of the predicate families -/

theorem SupportedFields_mem {fields : List (String × Option String × Descriptor)}
    (h : SupportedFields fields = true) :
    ∀ x ∈ fields, Supported x.2.2 = true := by
  induction fields with
  | nil => simp
  | cons hd tl ih =>
      obtain ⟨a, b, c⟩ := hd
      rw [SupportedFields] at h
      simp only [Bool.and_eq_true] at h
      intro x hx
      rcases List.mem_cons.mp hx with h1 | h1
      · subst h1
        exact h.1
      · exact ih h.2 x h1

theorem WfFields_mem {fields : List (String × Option String × Descriptor)}
    (h : WfFields fields = true) :
    ∀ x ∈ fields, Wf x.2.2 = true := by
  induction fields with
  | nil => simp
  | cons hd tl ih =>
      obtain ⟨a, b, c⟩ := hd
      rw [WfFields] at h
      simp only [Bool.and_eq_true] at h
      intro x hx
      rcases List.mem_cons.mp hx with h1 | h1
      · subst h1
        exact h.1
      · exact ih h.2 x h1

theorem VFriendlyFields_mem {fields : List (String × Option String × Descriptor)}
    (h : VFriendlyFields fields = true) :
    ∀ x ∈ fields, VFriendly x.2.2 = true := by
  induction fields with
  | nil => simp
  | cons hd tl ih =>
      obtain ⟨a, b, c⟩ := hd
      rw [VFriendlyFields] at h
      simp only [Bool.and_eq_true] at h
      intro x hx
      rcases List.mem_cons.mp hx with h1 | h1
      · subst h1
        exact h.1
      · exact ih h.2 x h1

theorem SupportedArgs_mem {args : List Descriptor}
    (h : SupportedArgs args = true) :
    ∀ a ∈ args, (isNoneType a || Supported a) = true := by
  induction args with
  | nil => simp
  | cons hd tl ih =>
      rw [SupportedArgs] at h
      simp only [Bool.and_eq_true] at h
      intro a ha
      rcases List.mem_cons.mp ha with h1 | h1
      · subst h1
        exact h.1
      · exact ih h.2 a h1

theorem WfArgs_mem {args : List Descriptor}
    (h : WfArgs args = true) :
    ∀ a ∈ args, (isNoneType a || (!isUnionD a && Wf a)) = true := by
  induction args with
  | nil => simp
  | cons hd tl ih =>
      rw [WfArgs] at h
      simp only [Bool.and_eq_true] at h
      intro a ha
      rcases List.mem_cons.mp ha with h1 | h1
      · subst h1
        exact h.1
      · exact ih h.2 a h1

theorem VFriendlyArgs_mem {args : List Descriptor}
    (h : VFriendlyArgs args = true) :
    ∀ a ∈ args, isNoneType a = false := by
  induction args with
  | nil => simp
  | cons hd tl ih =>
      rw [VFriendlyArgs] at h
      simp only [Bool.and_eq_true, Bool.not_eq_true'] at h
      intro a ha
      rcases List.mem_cons.mp ha with h1 | h1
      · subst h1
        exact h.1
      · exact ih h.2 a h1

/-! ### Schema construction succeeds on supported wellformed descriptors -/

/-- An annotated or plain non-union descriptor never lands in the
`oneOf` branch. -/
theorem producesOneOf_of_not_union {a : Descriptor}
    (hu : isUnionD a = false) (hw : Wf a = true) :
    producesOneOf (stripAnn a) = false := by
  cases a with
  | ann m d =>
      rw [Wf] at hw
      simp only [Bool.and_eq_true, Bool.not_eq_true'] at hw
      have hd : isUnionD d = false := hw.1.1.1
      cases d <;> simp_all [stripAnn, producesOneOf, isUnionD]
  | union args => simp [isUnionD] at hu
  | prim k => simp [stripAnn, producesOneOf]
  | lit vs => simp [stripAnn, producesOneOf]
  | enumType vs => simp [stripAnn, producesOneOf]
  | record doc fields => simp [stripAnn, producesOneOf]
  | listOf el => simp [stripAnn, producesOneOf]
  | noneType => simp [stripAnn, producesOneOf]
  | rawClass => simp [stripAnn, producesOneOf]
  | unsupportedGeneric => simp [stripAnn, producesOneOf]

theorem schemaList_ok {args : List Descriptor}
    (h : ∀ a ∈ args, ∃ n, type2schema a = .ok n) :
    ∃ l, schemaList args = .ok l ∧
      List.Forall₂ (fun a o => ∃ m, type2schema a = .ok m ∧ o = JVal.obj m) args l := by
  induction args with
  | nil => exact ⟨[], rfl, List.Forall₂.nil⟩
  | cons hd tl ih =>
      obtain ⟨n, hn⟩ := h hd (List.mem_cons_self hd tl)
      obtain ⟨l, hl, hf⟩ := ih (fun a ha => h a (List.mem_cons_of_mem hd ha))
      refine ⟨JVal.obj n :: l, ?_, List.Forall₂.cons ⟨n, hn, rfl⟩ hf⟩
      rw [schemaList, hn, hl]
      rfl

theorem schemaFields_ok {fields : List (String × Option String × Descriptor)}
    (h : ∀ x ∈ fields, ∃ n, type2schema x.2.2 = .ok n) :
    ∃ props, schemaFields fields = .ok props ∧
      List.Forall₂ (fun (x : String × Option String × Descriptor) kv =>
        ∃ m, type2schema x.2.2 = .ok m ∧
          kv = (x.1, JVal.obj (setKey m "description"
            (.str (descOr x.2.1 x.1))))) fields props := by
  induction fields with
  | nil => exact ⟨[], rfl, List.Forall₂.nil⟩
  | cons hd tl ih =>
      obtain ⟨a, b, c⟩ := hd
      obtain ⟨n, hn⟩ := h (a, b, c) (List.mem_cons_self _ tl)
      obtain ⟨props, hp, hf⟩ := ih (fun x hx => h x (List.mem_cons_of_mem _ hx))
      refine ⟨(a, JVal.obj (setKey n "description" (.str (descOr b a)))) :: props,
        ?_, List.Forall₂.cons ⟨n, hn, rfl⟩ hf⟩
      rw [schemaFields, hn, hp]
      rfl

theorem except_bind_ok {α β : Type} {x : Except PyExc α} {f : α → Except PyExc β}
    {b : β} (h : x >>= f = .ok b) : ∃ a, x = .ok a ∧ f a = .ok b := by
  cases x with
  | ok a => exact ⟨a, rfl, h⟩
  | error e => simp [Bind.bind, Except.bind] at h

theorem except_pure_ok {α : Type} {a b : α}
    (h : (pure a : Except PyExc α) = .ok b) : a = b := by
  simpa [pure, Except.pure] using h

/-- A wellformed `Annotated` wrapper never wraps another wrapper, so
stripping the inner descriptor is the identity. -/
theorem stripAnn_of_not_ann {d : Descriptor} (h : isAnnD d = false) :
    stripAnn d = d := by
  cases d <;> simp_all [isAnnD, stripAnn]

/-- Building a schema from any supported, wellformed descriptor
succeeds. -/
theorem t2s_ok : ∀ d : Descriptor, Supported d = true → Wf d = true →
    ∃ n, type2schema d = .ok n := by
  refine descriptor_ind _ ?_ ?_ ?_ ?_ ?_ ?_ ?_ ?_ ?_ ?_
  · intro k _ _
    cases k <;> exact ⟨_, rfl⟩
  · intro vs _ _
    exact ⟨_, rfl⟩
  · intro vs _ _
    exact ⟨_, rfl⟩
  · intro doc fields ih hs hw
    rw [Supported] at hs
    rw [Wf] at hw
    have hmem : ∀ x ∈ fields, ∃ n, type2schema x.2.2 = .ok n := fun x hx =>
      ih x hx (SupportedFields_mem hs x hx) (WfFields_mem hw x hx)
    obtain ⟨props, hp, _⟩ := schemaFields_ok hmem
    refine ⟨[("type", .str "object"), ("properties", .obj props),
      ("description", .str (descOr doc ""))], ?_⟩
    rw [type2schema, hp]
    rfl
  · intro el ih hs hw
    rw [Supported] at hs
    rw [Wf] at hw
    obtain ⟨n, hn⟩ := ih hs hw
    refine ⟨[("type", .str "array"), ("items", .obj n)], ?_⟩
    rw [type2schema, hn]
    rfl
  · intro args ih hs hw
    rw [Supported] at hs
    rw [Wf] at hw
    simp only [Bool.and_eq_true, decide_eq_true_eq] at hw
    obtain ⟨⟨hlen, hdup⟩, hargs⟩ := hw
    have hone : ∀ a ∈ args, ∃ n, type2schema a = .ok n := by
      intro a ha
      by_cases hna : isNoneType a = true
      · cases a <;> simp [isNoneType] at hna
        exact ⟨[], rfl⟩
      · have h1 := SupportedArgs_mem hs a ha
        have h2 := WfArgs_mem hargs a ha
        rw [Bool.not_eq_true] at hna
        rw [hna] at h1 h2
        simp only [Bool.false_or, Bool.and_eq_true] at h1 h2
        exact ih a ha h1 h2.2
    rcases args with _ | ⟨a, _ | ⟨b, _ | ⟨c, rest⟩⟩⟩
    · simp at hlen
    · simp at hlen
    · by_cases hb : isNoneType b = true
      · obtain ⟨n, hn⟩ := hone a (by simp)
        refine ⟨setKey n "nullable" (.bool true), ?_⟩
        rw [type2schema, hb]
        simp only [if_true]
        rw [hn]
        rfl
      · rw [Bool.not_eq_true] at hb
        by_cases ha : isNoneType a = true
        · obtain ⟨n, hn⟩ := hone b (by simp)
          refine ⟨setKey n "nullable" (.bool true), ?_⟩
          rw [type2schema, hb, ha]
          simp only [Bool.false_eq_true, if_false, if_true]
          rw [hn]
          rfl
        · rw [Bool.not_eq_true] at ha
          obtain ⟨l, hl, _⟩ := schemaList_ok hone
          refine ⟨[("oneOf", .arr l)], ?_⟩
          rw [type2schema, hb, ha]
          simp only [Bool.false_eq_true, if_false]
          rw [hl]
          rfl
    · obtain ⟨l, hl, _⟩ := schemaList_ok hone
      refine ⟨[("oneOf", .arr l)], ?_⟩
      have heq : type2schema (.union (a :: b :: c :: rest)) =
          (do
            let l2 ← schemaList (a :: b :: c :: rest)
            pure [("oneOf", JVal.arr l2)] : Except PyExc Node) := rfl
      rw [heq, hl]
      rfl
  · intro hs hw
    simp [Supported] at hs
  · intro hs hw
    simp [Supported] at hs
  · intro hs hw
    simp [Supported] at hs
  · intro m d ih hs hw
    rw [Supported] at hs
    rw [Wf] at hw
    simp only [Bool.and_eq_true] at hw
    obtain ⟨n, hn⟩ := ih hs hw.2
    refine ⟨mergeBounds n m.bounds, ?_⟩
    rw [type2schema, hn]
    rfl

/-- Schema nodes built from descriptors outside the `oneOf` branch carry
a `type` recognized by `TYPE_MAPPING` and no `oneOf` key. -/
theorem t2s_type_key : ∀ d : Descriptor, Supported d = true → Wf d = true →
    producesOneOf (stripAnn d) = false →
    ∀ n, type2schema d = .ok n →
      (∃ t pt, getVal n "type" = some (.str t) ∧ typeMappingGet t = .ok pt) ∧
      getVal n "oneOf" = none := by
  refine descriptor_ind _ ?_ ?_ ?_ ?_ ?_ ?_ ?_ ?_ ?_ ?_
  · intro k hs hw hp n hn
    cases k <;> simp [type2schema, pure, Except.pure] at hn <;> subst hn <;>
      exact ⟨⟨_, _, rfl, rfl⟩, rfl⟩
  · intro vs hs hw hp n hn
    simp [type2schema, pure, Except.pure] at hn
    subst hn
    exact ⟨⟨"string", _, rfl, rfl⟩, rfl⟩
  · intro vs hs hw hp n hn
    simp [type2schema, pure, Except.pure] at hn
    subst hn
    exact ⟨⟨"string", _, rfl, rfl⟩, rfl⟩
  · intro doc fields ih hs hw hp n hn
    rw [type2schema] at hn
    obtain ⟨props, hsf, h2⟩ := except_bind_ok hn
    have h3 := except_pure_ok h2
    subst h3
    exact ⟨⟨"object", _, rfl, rfl⟩, rfl⟩
  · intro el ih hs hw hp n hn
    rw [type2schema] at hn
    obtain ⟨m, hm, h2⟩ := except_bind_ok hn
    have h3 := except_pure_ok h2
    subst h3
    exact ⟨⟨"array", _, rfl, rfl⟩, rfl⟩
  · intro args ih hs hw hp n hn
    rw [Supported] at hs
    rw [Wf] at hw
    simp only [Bool.and_eq_true, decide_eq_true_eq] at hw
    obtain ⟨⟨hlen, hdup⟩, hargs⟩ := hw
    replace hp : producesOneOf (Descriptor.union args) = false := hp
    rcases args with _ | ⟨a, _ | ⟨b, _ | ⟨c, rest⟩⟩⟩
    · simp at hlen
    · simp at hlen
    · by_cases hb : isNoneType b = true
      · have hna : isNoneType a = false := by
          by_cases hq : isNoneType a = true
          · simp [List.filter, hq, hb] at hdup
          · exact Bool.not_eq_true _ ▸ hq
        rw [type2schema, hb] at hn
        simp only [if_true] at hn
        obtain ⟨m, hm, h2⟩ := except_bind_ok hn
        have h3 := except_pure_ok h2
        subst h3
        have h1 := SupportedArgs_mem hs a (by simp)
        have h2m := WfArgs_mem hargs a (by simp)
        rw [hna] at h1 h2m
        simp only [Bool.false_or, Bool.and_eq_true, Bool.not_eq_true'] at h1 h2m
        have hpa : producesOneOf (stripAnn a) = false :=
          producesOneOf_of_not_union h2m.1 h2m.2
        obtain ⟨⟨t, pt, ht, hpt⟩, ho⟩ := ih a (by simp) h1 h2m.2 hpa m hm
        refine ⟨⟨t, pt, ?_, hpt⟩, ?_⟩
        · rw [getVal_setKey]
          simp [ht]
        · rw [getVal_setKey]
          simp [ho]
      · rw [Bool.not_eq_true] at hb
        by_cases ha : isNoneType a = true
        · rw [type2schema, hb, ha] at hn
          simp only [Bool.false_eq_true, if_false, if_true] at hn
          obtain ⟨m, hm, h2⟩ := except_bind_ok hn
          have h3 := except_pure_ok h2
          subst h3
          have h1 := SupportedArgs_mem hs b (by simp)
          have h2m := WfArgs_mem hargs b (by simp)
          rw [hb] at h1 h2m
          simp only [Bool.false_or, Bool.and_eq_true, Bool.not_eq_true'] at h1 h2m
          have hpb : producesOneOf (stripAnn b) = false :=
            producesOneOf_of_not_union h2m.1 h2m.2
          obtain ⟨⟨t, pt, ht, hpt⟩, ho⟩ := ih b (by simp) h1 h2m.2 hpb m hm
          refine ⟨⟨t, pt, ?_, hpt⟩, ?_⟩
          · rw [getVal_setKey]
            simp [ht]
          · rw [getVal_setKey]
            simp [ho]
        · rw [Bool.not_eq_true] at ha
          rw [producesOneOf, ha, hb] at hp
          simp at hp
    · have hpt : producesOneOf (Descriptor.union (a :: b :: c :: rest)) = true := by
        simp [producesOneOf]
      rw [hpt] at hp
      simp at hp
  · intro hs hw hp n hn
    simp [Supported] at hs
  · intro hs hw hp n hn
    simp [Supported] at hs
  · intro hs hw hp n hn
    simp [Supported] at hs
  · intro m d ih hs hw hp n hn
    rw [Supported] at hs
    rw [Wf] at hw
    simp only [Bool.and_eq_true, Bool.not_eq_true'] at hw
    rw [stripAnn] at hp
    have hsd : stripAnn d = d := stripAnn_of_not_ann hw.1.1.2
    have hpd : producesOneOf (stripAnn d) = false := by
      rw [hsd]
      exact hp
    rw [type2schema] at hn
    obtain ⟨bn, hbn, h2⟩ := except_bind_ok hn
    have h3 := except_pure_ok h2
    subst h3
    obtain ⟨⟨t, pt, ht, hpt⟩, ho⟩ := ih hs hw.2 hpd bn hbn
    refine ⟨⟨t, pt, ?_, hpt⟩, ?_⟩
    · rw [getVal_mergeBounds _ _ _ (by decide) (by decide) (by decide) (by decide)]
      exact ht
    · rw [getVal_mergeBounds _ _ _ (by decide) (by decide) (by decide) (by decide)]
      exact ho


theorem some_str_inj {a b : String} (h : some (JVal.str a) = some (JVal.str b)) :
    a = b := by
  cases h
  rfl

theorem forall2_mem_right {α β : Type} {R : α → β → Prop} :
    ∀ {l1 : List α} {l2 : List β}, List.Forall₂ R l1 l2 →
      ∀ y ∈ l2, ∃ x ∈ l1, R x y := by
  intro l1 l2 h
  induction h with
  | nil => simp
  | cons hr htail ih =>
      intro y hy
      rcases List.mem_cons.mp hy with h1 | h1
      · subst h1
        exact ⟨_, List.mem_cons_self _ _, hr⟩
      · obtain ⟨x, hx, hrx⟩ := ih y h1
        exact ⟨x, List.mem_cons_of_mem _ hx, hrx⟩

theorem NGood_setKey {n : Node} (h : NGood n) (k : String) (v : JVal)
    (h1 : k ≠ "oneOf") (h2 : k ≠ "type") (h3 : k ≠ "properties")
    (h4 : k ≠ "items") : NGood (setKey n k v) := by
  cases h with
  | oneOfCase n options ho hall =>
      exact NGood.oneOfCase _ options (by simp [getVal_setKey, h1, ho]) hall
  | primCase n t ho ht hno hna =>
      exact NGood.primCase _ t (by simp [getVal_setKey, h1, ho])
        (by simp [getVal_setKey, h2, ht]) hno hna
  | objCase n props ho ht hp hall =>
      exact NGood.objCase _ props (by simp [getVal_setKey, h1, ho])
        (by simp [getVal_setKey, h2, ht]) (by simp [getVal_setKey, h3, hp]) hall
  | arrCase n items ho ht hi hk =>
      exact NGood.arrCase _ items (by simp [getVal_setKey, h1, ho])
        (by simp [getVal_setKey, h2, ht]) (by simp [getVal_setKey, h4, hi]) hk

theorem NGood_mergeBounds {n : Node} (h : NGood n) (bs : List BoundMeta) :
    NGood (mergeBounds n bs) := by
  induction bs generalizing n with
  | nil => exact h
  | cons b rest ih =>
      have hstep : mergeBounds n (b :: rest) = mergeBounds (applyBound n b) rest := rfl
      rw [hstep]
      refine ih ?_
      cases b <;> exact NGood_setKey h _ _ (by decide) (by decide) (by decide) (by decide)

theorem check_properties_ok : ∀ props : Node,
    (∀ kv ∈ props, NGoodVal kv.2) → check_properties props = .ok true := by
  intro props
  induction props using check_properties.induct with
  | case1 =>
      intro _
      simp [check_properties, pure, Except.pure]
  | case2 fst rest oo h1 options h2 h3 ih =>
      intro hyp
      rw [check_properties]
      simp only [h1, if_true, h2, h3]
      exact ih (fun kv hkv => hyp kv (List.mem_cons_of_mem _ hkv))
  | case3 fst rest oo h1 options h2 h3 =>
      intro hyp
      have hv := hyp (fst, .obj oo) (List.mem_cons_self _ _)
      cases hv with
      | mk m hgood hdesc =>
          cases hgood with
          | oneOfCase n options2 ho hall =>
              rw [h2] at ho
              have hoo : options2 = options := by
                cases ho
                rfl
              subst hoo
              refine absurd ?_ h3
              rw [List.all_eq_true]
              intro o hoeq
              have hiso := hall o hoeq
              cases o <;> simp [isObjWithType] at hiso ⊢
              exact ⟨hiso, hdesc⟩
          | primCase n t ho ht hno hna =>
              rw [hasKey, ho] at h1
              simp at h1
          | objCase n props2 ho ht hp hall =>
              rw [hasKey, ho] at h1
              simp at h1
          | arrCase n items ho ht hi hk =>
              rw [hasKey, ho] at h1
              simp at h1
  | case4 fst rest oo h1 h2 =>
      intro hyp
      have hv := hyp (fst, .obj oo) (List.mem_cons_self _ _)
      cases hv with
      | mk m hgood hdesc =>
          cases hgood with
          | oneOfCase n options2 ho hall => exact (h2 options2 ho).elim
          | primCase n t ho ht hno hna =>
              rw [hasKey, ho] at h1
              simp at h1
          | objCase n props2 ho ht hp hall =>
              rw [hasKey, ho] at h1
              simp at h1
          | arrCase n items ho ht hi hk =>
              rw [hasKey, ho] at h1
              simp at h1
  | case5 fst rest oo h1 h2 h3 props h4 ihp ihr =>
      intro hyp
      have hv := hyp (fst, .obj oo) (List.mem_cons_self _ _)
      have hres2 := ihr (fun kv hkv => hyp kv (List.mem_cons_of_mem _ hkv))
      cases hv with
      | mk m hgood hdesc =>
          cases hgood with
          | oneOfCase n options2 ho hall =>
              rw [hasKey, ho] at h1
              simp at h1
          | primCase n t ho ht hno hna =>
              rw [h3] at ht
              exact absurd (some_str_inj ht).symm hno
          | arrCase n items ho ht hi hk =>
              exact absurd (some_str_inj (h3 ▸ ht)) (by decide)
          | objCase n props2 ho ht hp hall =>
              rw [h4] at hp
              have hpp : props2 = props := by
                cases hp
                rfl
              subst hpp
              have hres := ihp hall
              rw [Bool.not_eq_true] at h1
              rw [check_properties]
              simp only [h1, Bool.false_eq_true, if_false, h2, if_true, h3]
              split
              · next props3 heq =>
                  rw [h4] at heq
                  cases heq
                  simp [hres, hres2, Bind.bind, Except.bind]
              · next val hne heq =>
                  rw [h4] at heq
                  cases heq
                  exact (hne props2 rfl).elim
              · next heq =>
                  rw [h4] at heq
                  exact Option.noConfusion heq
  | case6 fst rest oo h1 h2 h3 val h4 h5 =>
      intro hyp
      have hv := hyp (fst, .obj oo) (List.mem_cons_self _ _)
      cases hv with
      | mk m hgood hdesc =>
          cases hgood with
          | oneOfCase n options2 ho hall =>
              rw [hasKey, ho] at h1
              simp at h1
          | primCase n t ho ht hno hna =>
              rw [h3] at ht
              exact absurd (some_str_inj ht).symm hno
          | arrCase n items ho ht hi hk =>
              exact absurd (some_str_inj (h3 ▸ ht)) (by decide)
          | objCase n props2 ho ht hp hall =>
              rw [h5] at hp
              cases hp
              exact (h4 props2 rfl).elim
  | case7 fst rest oo h1 h2 h3 h4 =>
      intro hyp
      have hv := hyp (fst, .obj oo) (List.mem_cons_self _ _)
      cases hv with
      | mk m hgood hdesc =>
          cases hgood with
          | oneOfCase n options2 ho hall =>
              rw [hasKey, ho] at h1
              simp at h1
          | primCase n t ho ht hno hna =>
              rw [h3] at ht
              exact absurd (some_str_inj ht).symm hno
          | arrCase n items ho ht hi hk =>
              exact absurd (some_str_inj (h3 ▸ ht)) (by decide)
          | objCase n props2 ho ht hp hall =>
              rw [h4] at hp
              exact Option.noConfusion hp
  | case8 fst rest oo h1 h2 h3 items h4 h5 ih =>
      intro hyp
      rw [Bool.not_eq_true] at h1
      rw [check_properties]
      simp only [h1, Bool.false_eq_true, if_false, h2, if_true, h3]
      split
      · next items3 heq =>
          rw [h4] at heq
          cases heq
          simp only [h5, if_true]
          exact ih (fun kv hkv => hyp kv (List.mem_cons_of_mem _ hkv))
      · next val hne heq =>
          rw [h4] at heq
          cases heq
          exact (hne items rfl).elim
      · next heq =>
          rw [h4] at heq
          exact Option.noConfusion heq
  | case9 fst rest oo h1 h2 h3 items h4 h5 =>
      intro hyp
      have hv := hyp (fst, .obj oo) (List.mem_cons_self _ _)
      cases hv with
      | mk m hgood hdesc =>
          cases hgood with
          | oneOfCase n options2 ho hall =>
              rw [hasKey, ho] at h1
              simp at h1
          | primCase n t ho ht hno hna =>
              rw [h3] at ht
              exact absurd (some_str_inj ht).symm hna
          | objCase n props2 ho ht hp hall =>
              exact absurd (some_str_inj (h3 ▸ ht)) (by decide)
          | arrCase n items2 ho ht hi hk =>
              rw [h4] at hi
              have hii : items2 = items := by
                cases hi
                rfl
              subst hii
              refine absurd ?_ h5
              rw [Bool.and_eq_true]
              exact ⟨hk, hdesc⟩
  | case10 fst rest oo h1 h2 h3 val h4 h5 =>
      intro hyp
      have hv := hyp (fst, .obj oo) (List.mem_cons_self _ _)
      cases hv with
      | mk m hgood hdesc =>
          cases hgood with
          | oneOfCase n options2 ho hall =>
              rw [hasKey, ho] at h1
              simp at h1
          | primCase n t ho ht hno hna =>
              rw [h3] at ht
              exact absurd (some_str_inj ht).symm hna
          | objCase n props2 ho ht hp hall =>
              exact absurd (some_str_inj (h3 ▸ ht)) (by decide)
          | arrCase n items2 ho ht hi hk =>
              rw [h5] at hi
              cases hi
              exact (h4 items2 rfl).elim
  | case11 fst rest oo h1 h2 h3 h4 =>
      intro hyp
      have hv := hyp (fst, .obj oo) (List.mem_cons_self _ _)
      cases hv with
      | mk m hgood hdesc =>
          cases hgood with
          | oneOfCase n options2 ho hall =>
              rw [hasKey, ho] at h1
              simp at h1
          | primCase n t ho ht hno hna =>
              rw [h3] at ht
              exact absurd (some_str_inj ht).symm hna
          | objCase n props2 ho ht hp hall =>
              exact absurd (some_str_inj (h3 ▸ ht)) (by decide)
          | arrCase n items2 ho ht hi hk =>
              rw [h4] at hi
              exact Option.noConfusion hi
  | case12 fst rest oo h1 h2 h3 h4 ih =>
      intro hyp
      have hres := ih (fun kv hkv => hyp kv (List.mem_cons_of_mem _ hkv))
      rw [Bool.not_eq_true] at h1
      rw [check_properties]
      simp only [h1, Bool.false_eq_true, if_false, h2, if_true]
      exact hres
  | case13 fst rest oo h1 h2 =>
      intro hyp
      have hv := hyp (fst, .obj oo) (List.mem_cons_self _ _)
      cases hv with
      | mk m hgood hdesc =>
          cases hgood with
          | oneOfCase n options2 ho hall =>
              rw [hasKey, ho] at h1
              simp at h1
          | primCase n t ho ht hno hna =>
              refine absurd ?_ h2
              rw [Bool.and_eq_true]
              exact ⟨by simp [hasKey, ht], hdesc⟩
          | objCase n props2 ho ht hp hall =>
              refine absurd ?_ h2
              rw [Bool.and_eq_true]
              exact ⟨by simp [hasKey, ht], hdesc⟩
          | arrCase n items2 ho ht hi hk =>
              refine absurd ?_ h2
              rw [Bool.and_eq_true]
              exact ⟨by simp [hasKey, ht], hdesc⟩
  | case14 fst details rest h1 =>
      intro hyp
      have hv := hyp (fst, details) (List.mem_cons_self _ _)
      cases hv with
      | mk m hgood hdesc => exact (h1 m rfl).elim


/-- Schema nodes built from supported, wellformed, validator-friendly
descriptors satisfy the shape that `check_properties` checks. -/
theorem t2s_ngood : ∀ d : Descriptor, Supported d = true → Wf d = true →
    VFriendly d = true → ∀ n, type2schema d = .ok n → NGood n := by
  refine descriptor_ind _ ?_ ?_ ?_ ?_ ?_ ?_ ?_ ?_ ?_ ?_
  · intro k hs hw hv n hn
    cases k <;> simp [type2schema, pure, Except.pure] at hn <;> subst hn <;>
      exact NGood.primCase _ _ rfl rfl (by decide) (by decide)
  · intro vs hs hw hv n hn
    simp [type2schema, pure, Except.pure] at hn
    subst hn
    exact NGood.primCase _ "string" rfl rfl (by decide) (by decide)
  · intro vs hs hw hv n hn
    simp [type2schema, pure, Except.pure] at hn
    subst hn
    exact NGood.primCase _ "string" rfl rfl (by decide) (by decide)
  · intro doc fields ih hs hw hv n hn
    rw [Supported] at hs
    rw [Wf] at hw
    rw [VFriendly] at hv
    rw [type2schema] at hn
    obtain ⟨props, hsf, h2⟩ := except_bind_ok hn
    have h3 := except_pure_ok h2
    subst h3
    have hmem : ∀ x ∈ fields, ∃ m, type2schema x.2.2 = .ok m :=
      fun x hx => t2s_ok _ (SupportedFields_mem hs x hx) (WfFields_mem hw x hx)
    obtain ⟨props2, hsf2, hf⟩ := schemaFields_ok hmem
    rw [hsf] at hsf2
    have hpp : props2 = props := by
      cases hsf2
      rfl
    subst hpp
    refine NGood.objCase _ props2 rfl rfl rfl ?_
    intro kv hkv
    obtain ⟨x, hx, m, hm, hkveq⟩ := forall2_mem_right hf kv hkv
    subst hkveq
    have hg : NGood m := ih x hx (SupportedFields_mem hs x hx)
      (WfFields_mem hw x hx) (VFriendlyFields_mem hv x hx) m hm
    refine NGoodVal.mk _
      (NGood_setKey hg _ _ (by decide) (by decide) (by decide) (by decide)) ?_
    rw [hasKey_setKey]
    simp
  · intro el ih hs hw hv n hn
    rw [Supported] at hs
    rw [Wf] at hw
    simp only [VFriendly, Bool.not_eq_true'] at hv
    rw [type2schema] at hn
    obtain ⟨m, hm, h2⟩ := except_bind_ok hn
    have h3 := except_pure_ok h2
    subst h3
    obtain ⟨⟨t, pt, ht, hpt⟩, ho⟩ := t2s_type_key el hs hw hv m hm
    refine NGood.arrCase _ m rfl rfl rfl ?_
    rw [hasKey, ht]
    rfl
  · intro args ih hs hw hv n hn
    rw [Supported] at hs
    rw [Wf] at hw
    simp only [Bool.and_eq_true, decide_eq_true_eq] at hw
    obtain ⟨⟨hlen, hdup⟩, hargs⟩ := hw
    rcases args with _ | ⟨a, _ | ⟨b, _ | ⟨c, rest⟩⟩⟩
    · simp at hlen
    · simp at hlen
    · rw [VFriendly] at hv
      by_cases hb : isNoneType b = true
      · rw [hb] at hv
        simp only [if_true] at hv
        have hna : isNoneType a = false := by
          by_cases hq : isNoneType a = true
          · simp [List.filter, hq, hb] at hdup
          · exact Bool.not_eq_true _ ▸ hq
        rw [type2schema, hb] at hn
        simp only [if_true] at hn
        obtain ⟨m, hm, h2⟩ := except_bind_ok hn
        have h3 := except_pure_ok h2
        subst h3
        have h1 := SupportedArgs_mem hs a (by simp)
        have h2m := WfArgs_mem hargs a (by simp)
        rw [hna] at h1 h2m
        simp only [Bool.false_or, Bool.and_eq_true, Bool.not_eq_true'] at h1 h2m
        have hg : NGood m := ih a (by simp) h1 h2m.2 hv m hm
        exact NGood_setKey hg _ _ (by decide) (by decide) (by decide) (by decide)
      · rw [Bool.not_eq_true] at hb
        rw [hb] at hv
        by_cases ha : isNoneType a = true
        · rw [ha] at hv
          simp only [Bool.false_eq_true, if_false, if_true] at hv
          rw [type2schema, hb, ha] at hn
          simp only [Bool.false_eq_true, if_false, if_true] at hn
          obtain ⟨m, hm, h2⟩ := except_bind_ok hn
          have h3 := except_pure_ok h2
          subst h3
          have h1 := SupportedArgs_mem hs b (by simp)
          have h2m := WfArgs_mem hargs b (by simp)
          rw [hb] at h1 h2m
          simp only [Bool.false_or, Bool.and_eq_true, Bool.not_eq_true'] at h1 h2m
          have hg : NGood m := ih b (by simp) h1 h2m.2 hv m hm
          exact NGood_setKey hg _ _ (by decide) (by decide) (by decide) (by decide)
        · rw [Bool.not_eq_true] at ha
          rw [type2schema, hb, ha] at hn
          simp only [Bool.false_eq_true, if_false] at hn
          obtain ⟨l, hl, h2⟩ := except_bind_ok hn
          have h3 := except_pure_ok h2
          subst h3
          have hone : ∀ x ∈ [a, b], ∃ m, type2schema x = .ok m := by
            intro x hx
            have h1 := SupportedArgs_mem hs x hx
            have h2m := WfArgs_mem hargs x hx
            have hxn : isNoneType x = false := by
              rcases List.mem_cons.mp hx with hq | hq
              · subst hq
                exact ha
              · simp at hq
                subst hq
                exact hb
            rw [hxn] at h1 h2m
            simp only [Bool.false_or, Bool.and_eq_true, Bool.not_eq_true'] at h1 h2m
            exact t2s_ok _ h1 h2m.2
          obtain ⟨l2, hl2, hf⟩ := schemaList_ok hone
          rw [hl] at hl2
          have hll : l2 = l := by
            cases hl2
            rfl
          subst hll
          refine NGood.oneOfCase _ l2 rfl ?_
          intro o hol
          obtain ⟨x, hx, m, hm, hoeq⟩ := forall2_mem_right hf o hol
          subst hoeq
          have h1 := SupportedArgs_mem hs x hx
          have h2m := WfArgs_mem hargs x hx
          have hxn : isNoneType x = false := by
            rcases List.mem_cons.mp hx with hq | hq
            · subst hq
              exact ha
            · simp at hq
              subst hq
              exact hb
          rw [hxn] at h1 h2m
          simp only [Bool.false_or, Bool.and_eq_true, Bool.not_eq_true'] at h1 h2m
          obtain ⟨⟨t, pt, ht, hpt⟩, ho2⟩ := t2s_type_key x h1 h2m.2
            (producesOneOf_of_not_union h2m.1 h2m.2) m hm
          rw [isObjWithType, hasKey, ht]
          rfl
    · have hveq : VFriendly (Descriptor.union (a :: b :: c :: rest)) =
          VFriendlyArgs (a :: b :: c :: rest) := by
        simp [VFriendly]
      rw [hveq] at hv
      have heq : type2schema (Descriptor.union (a :: b :: c :: rest)) =
          (do
            let l2 ← schemaList (a :: b :: c :: rest)
            pure [("oneOf", JVal.arr l2)] : Except PyExc Node) := rfl
      rw [heq] at hn
      obtain ⟨l, hl, h2⟩ := except_bind_ok hn
      have h3 := except_pure_ok h2
      subst h3
      have hnon := VFriendlyArgs_mem hv
      have hone : ∀ x ∈ a :: b :: c :: rest, ∃ m, type2schema x = .ok m := by
        intro x hx
        have h1 := SupportedArgs_mem hs x hx
        have h2m := WfArgs_mem hargs x hx
        rw [hnon x hx] at h1 h2m
        simp only [Bool.false_or, Bool.and_eq_true, Bool.not_eq_true'] at h1 h2m
        exact t2s_ok _ h1 h2m.2
      obtain ⟨l2, hl2, hf⟩ := schemaList_ok hone
      rw [hl] at hl2
      have hll : l2 = l := by
        cases hl2
        rfl
      subst hll
      refine NGood.oneOfCase _ l2 rfl ?_
      intro o hol
      obtain ⟨x, hx, m, hm, hoeq⟩ := forall2_mem_right hf o hol
      subst hoeq
      have h1 := SupportedArgs_mem hs x hx
      have h2m := WfArgs_mem hargs x hx
      rw [hnon x hx] at h1 h2m
      simp only [Bool.false_or, Bool.and_eq_true, Bool.not_eq_true'] at h1 h2m
      obtain ⟨⟨t, pt, ht, hpt⟩, ho2⟩ := t2s_type_key x h1 h2m.2
        (producesOneOf_of_not_union h2m.1 h2m.2) m hm
      rw [isObjWithType, hasKey, ht]
      rfl
  · intro hs hw hv n hn
    simp [Supported] at hs
  · intro hs hw hv n hn
    simp [Supported] at hs
  · intro hs hw hv n hn
    simp [Supported] at hs
  · intro m d ih hs hw hv n hn
    rw [Supported] at hs
    rw [Wf] at hw
    rw [VFriendly] at hv
    simp only [Bool.and_eq_true, Bool.not_eq_true'] at hw
    rw [type2schema] at hn
    obtain ⟨bn, hbn, h2⟩ := except_bind_ok hn
    have h3 := except_pure_ok h2
    subst h3
    exact NGood_mergeBounds (ih hs hw.2 hv bn hbn) _


/-! ### Top-node invariants of every emitted schema node.  Every node the
Builder ever emits is `type2schema` of some descriptor (possibly further
extended with `description`/`default`/`nullable`/bound keys, none of
which is `enum`), so quantifying over all descriptors covers all emitted
nodes. -/

theorem enumPred_setKey {n : Node} {k : String} {v : JVal} (h : k ≠ "enum") :
    enumPred (setKey n k v) = enumPred n := by
  simp [enumPred, getVal_setKey, h]

theorem enumPred_mergeBounds (n : Node) (bs : List BoundMeta) :
    enumPred (mergeBounds n bs) = enumPred n := by
  unfold enumPred
  rw [getVal_mergeBounds bs n "enum" (by decide) (by decide) (by decide) (by decide)]

theorem nullablePred_mergeBounds (n : Node) (bs : List BoundMeta) :
    nullablePred (mergeBounds n bs) = nullablePred n := by
  unfold nullablePred hasKey
  rw [getVal_mergeBounds bs n "nullable" (by decide) (by decide) (by decide) (by decide),
    getVal_mergeBounds bs n "type" (by decide) (by decide) (by decide) (by decide)]

/-- Every schema node `type2schema` emits keeps its `enum` key (when any)
bound to a list of strings — unconditionally, for every descriptor the
translation succeeds on. -/
theorem t2s_enum_top : ∀ d : Descriptor, ∀ n, type2schema d = .ok n →
    enumPred n = true := by
  refine descriptor_ind _ ?_ ?_ ?_ ?_ ?_ ?_ ?_ ?_ ?_ ?_
  · intro k n hn
    cases k <;> simp [type2schema, pure, Except.pure] at hn <;> subst hn <;> rfl
  · intro vs n hn
    simp [type2schema, pure, Except.pure] at hn
    subst hn
    simp [enumPred, getVal, List.all_map, Function.comp]
  · intro vs n hn
    simp [type2schema, pure, Except.pure] at hn
    subst hn
    simp [enumPred, getVal, List.all_map, Function.comp]
  · intro doc fields ih n hn
    rw [type2schema] at hn
    obtain ⟨props, hsf, h2⟩ := except_bind_ok hn
    have h3 := except_pure_ok h2
    subst h3
    rfl
  · intro el ih n hn
    rw [type2schema] at hn
    obtain ⟨m, hm, h2⟩ := except_bind_ok hn
    have h3 := except_pure_ok h2
    subst h3
    rfl
  · intro args ih n hn
    rcases args with _ | ⟨a, _ | ⟨b, _ | ⟨c, rest⟩⟩⟩
    · have heq : type2schema (Descriptor.union []) =
          (do
            let l2 ← schemaList []
            pure [("oneOf", JVal.arr l2)] : Except PyExc Node) := rfl
      rw [heq] at hn
      obtain ⟨l, hl, h2⟩ := except_bind_ok hn
      have h3 := except_pure_ok h2
      subst h3
      rfl
    · have heq : type2schema (Descriptor.union [a]) =
          (do
            let l2 ← schemaList [a]
            pure [("oneOf", JVal.arr l2)] : Except PyExc Node) := rfl
      rw [heq] at hn
      obtain ⟨l, hl, h2⟩ := except_bind_ok hn
      have h3 := except_pure_ok h2
      subst h3
      rfl
    · by_cases hb : isNoneType b = true
      · rw [type2schema, hb] at hn
        simp only [if_true] at hn
        obtain ⟨m, hm, h2⟩ := except_bind_ok hn
        have h3 := except_pure_ok h2
        subst h3
        rw [enumPred_setKey (by decide)]
        exact ih a (by simp) m hm
      · rw [Bool.not_eq_true] at hb
        by_cases ha : isNoneType a = true
        · rw [type2schema, hb, ha] at hn
          simp only [Bool.false_eq_true, if_false, if_true] at hn
          obtain ⟨m, hm, h2⟩ := except_bind_ok hn
          have h3 := except_pure_ok h2
          subst h3
          rw [enumPred_setKey (by decide)]
          exact ih b (by simp) m hm
        · rw [Bool.not_eq_true] at ha
          rw [type2schema, hb, ha] at hn
          simp only [Bool.false_eq_true, if_false] at hn
          obtain ⟨l, hl, h2⟩ := except_bind_ok hn
          have h3 := except_pure_ok h2
          subst h3
          rfl
    · have heq : type2schema (Descriptor.union (a :: b :: c :: rest)) =
          (do
            let l2 ← schemaList (a :: b :: c :: rest)
            pure [("oneOf", JVal.arr l2)] : Except PyExc Node) := rfl
      rw [heq] at hn
      obtain ⟨l, hl, h2⟩ := except_bind_ok hn
      have h3 := except_pure_ok h2
      subst h3
      rfl
  · intro n hn
    simp [type2schema, pure, Except.pure] at hn
    subst hn
    rfl
  · intro n hn
    simp [type2schema, pure, Except.pure] at hn
    subst hn
    rfl
  · intro n hn
    simp [type2schema] at hn
  · intro m d ih n hn
    rw [type2schema] at hn
    obtain ⟨bn, hbn, h2⟩ := except_bind_ok hn
    have h3 := except_pure_ok h2
    subst h3
    rw [enumPred_mergeBounds]
    exact ih bn hbn

/-- Every schema node built from a supported wellformed descriptor that
carries `nullable` also carries a concrete `type`. -/
theorem t2s_nullable_top : ∀ d : Descriptor, Supported d = true → Wf d = true →
    ∀ n, type2schema d = .ok n → nullablePred n = true := by
  refine descriptor_ind _ ?_ ?_ ?_ ?_ ?_ ?_ ?_ ?_ ?_ ?_
  · intro k hs hw n hn
    cases k <;> simp [type2schema, pure, Except.pure] at hn <;> subst hn <;> rfl
  · intro vs hs hw n hn
    simp [type2schema, pure, Except.pure] at hn
    subst hn
    rfl
  · intro vs hs hw n hn
    simp [type2schema, pure, Except.pure] at hn
    subst hn
    rfl
  · intro doc fields ih hs hw n hn
    rw [type2schema] at hn
    obtain ⟨props, hsf, h2⟩ := except_bind_ok hn
    have h3 := except_pure_ok h2
    subst h3
    rfl
  · intro el ih hs hw n hn
    rw [type2schema] at hn
    obtain ⟨m, hm, h2⟩ := except_bind_ok hn
    have h3 := except_pure_ok h2
    subst h3
    rfl
  · intro args ih hs hw n hn
    rw [Supported] at hs
    rw [Wf] at hw
    simp only [Bool.and_eq_true, decide_eq_true_eq] at hw
    obtain ⟨⟨hlen, hdup⟩, hargs⟩ := hw
    rcases args with _ | ⟨a, _ | ⟨b, _ | ⟨c, rest⟩⟩⟩
    · simp at hlen
    · simp at hlen
    · by_cases hb : isNoneType b = true
      · have hna : isNoneType a = false := by
          by_cases hq : isNoneType a = true
          · simp [List.filter, hq, hb] at hdup
          · exact Bool.not_eq_true _ ▸ hq
        rw [type2schema, hb] at hn
        simp only [if_true] at hn
        obtain ⟨m, hm, h2⟩ := except_bind_ok hn
        have h3 := except_pure_ok h2
        subst h3
        have h1 := SupportedArgs_mem hs a (by simp)
        have h2m := WfArgs_mem hargs a (by simp)
        rw [hna] at h1 h2m
        simp only [Bool.false_or, Bool.and_eq_true, Bool.not_eq_true'] at h1 h2m
        obtain ⟨⟨t, pt, ht, hpt⟩, ho⟩ := t2s_type_key a h1 h2m.2
          (producesOneOf_of_not_union h2m.1 h2m.2) m hm
        unfold nullablePred
        rw [hasKey_setKey, hasKey_setKey]
        simp [hasKey, ht]
      · rw [Bool.not_eq_true] at hb
        by_cases ha : isNoneType a = true
        · rw [type2schema, hb, ha] at hn
          simp only [Bool.false_eq_true, if_false, if_true] at hn
          obtain ⟨m, hm, h2⟩ := except_bind_ok hn
          have h3 := except_pure_ok h2
          subst h3
          have h1 := SupportedArgs_mem hs b (by simp)
          have h2m := WfArgs_mem hargs b (by simp)
          rw [hb] at h1 h2m
          simp only [Bool.false_or, Bool.and_eq_true, Bool.not_eq_true'] at h1 h2m
          obtain ⟨⟨t, pt, ht, hpt⟩, ho⟩ := t2s_type_key b h1 h2m.2
            (producesOneOf_of_not_union h2m.1 h2m.2) m hm
          unfold nullablePred
          rw [hasKey_setKey, hasKey_setKey]
          simp [hasKey, ht]
        · rw [Bool.not_eq_true] at ha
          rw [type2schema, hb, ha] at hn
          simp only [Bool.false_eq_true, if_false] at hn
          obtain ⟨l, hl, h2⟩ := except_bind_ok hn
          have h3 := except_pure_ok h2
          subst h3
          rfl
    · have heq : type2schema (Descriptor.union (a :: b :: c :: rest)) =
          (do
            let l2 ← schemaList (a :: b :: c :: rest)
            pure [("oneOf", JVal.arr l2)] : Except PyExc Node) := rfl
      rw [heq] at hn
      obtain ⟨l, hl, h2⟩ := except_bind_ok hn
      have h3 := except_pure_ok h2
      subst h3
      rfl
  · intro hs hw n hn
    simp [Supported] at hs
  · intro hs hw n hn
    simp [Supported] at hs
  · intro hs hw n hn
    simp [Supported] at hs
  · intro m d ih hs hw n hn
    rw [Supported] at hs
    rw [Wf] at hw
    simp only [Bool.and_eq_true, Bool.not_eq_true'] at hw
    rw [type2schema] at hn
    obtain ⟨bn, hbn, h2⟩ := except_bind_ok hn
    have h3 := except_pure_ok h2
    subst h3
    rw [nullablePred_mergeBounds]
    exact ih hs hw.2 bn hbn


/-! ### Assembly-level structure lemmas -/

/-- `get_parameter_json_schema` succeeds whenever `type2schema` does, and
its result is the schema node, possibly extended with a `default`, always
extended with a string `description`. -/
theorem gpjs_ok {k : String} {v : Descriptor} {dv : Node} {n : Node}
    (hok : type2schema v = .ok n) :
    ∃ mid dstr, (mid = n ∨ ∃ dval, mid = setKey n "default" dval) ∧
      get_parameter_json_schema k v dv =
        .ok (setKey mid "description" (JVal.str dstr)) := by
  unfold get_parameter_json_schema
  rw [hok]
  cases hdv : getVal dv k with
  | none =>
      cases hm : extract_ann_meta v with
      | none =>
          exact ⟨n, k, Or.inl rfl, by simp [Bind.bind, Except.bind, pure, Except.pure]⟩
      | some m =>
          cases hd : m.descr with
          | none =>
              exact ⟨n, k, Or.inl rfl,
                by simp [Bind.bind, Except.bind, pure, Except.pure, hd]⟩
          | some d =>
              by_cases hde : d = ""
              · exact ⟨n, k, Or.inl rfl,
                  by simp [Bind.bind, Except.bind, pure, Except.pure, hd, hde]⟩
              · exact ⟨n, d, Or.inl rfl,
                  by simp [Bind.bind, Except.bind, pure, Except.pure, hd, hde]⟩
  | some dval =>
      cases hm : extract_ann_meta v with
      | none =>
          exact ⟨setKey n "default" dval, k, Or.inr ⟨dval, rfl⟩,
            by simp [Bind.bind, Except.bind, pure, Except.pure]⟩
      | some m =>
          cases hd : m.descr with
          | none =>
              exact ⟨setKey n "default" dval, k, Or.inr ⟨dval, rfl⟩,
                by simp [Bind.bind, Except.bind, pure, Except.pure, hd]⟩
          | some d =>
              by_cases hde : d = ""
              · exact ⟨setKey n "default" dval, k, Or.inr ⟨dval, rfl⟩,
                  by simp [Bind.bind, Except.bind, pure, Except.pure, hd, hde]⟩
              · exact ⟨setKey n "default" dval, d, Or.inr ⟨dval, rfl⟩,
                  by simp [Bind.bind, Except.bind, pure, Except.pure, hd, hde]⟩

/-- The properties comprehension succeeds pointwise and preserves names
and order. -/
theorem paramsProps_ok {anns : List (String × Descriptor)} {dv : Node}
    (h : ∀ kv ∈ anns, ∃ n, type2schema kv.2 = .ok n) :
    ∃ props, paramsProps anns dv = .ok props ∧
      props.map Prod.fst = anns.map Prod.fst ∧
      List.Forall₂ (fun (kv : String × Descriptor) (pv : String × JVal) =>
        ∃ n mid dstr, type2schema kv.2 = .ok n ∧
          (mid = n ∨ ∃ dval, mid = setKey n "default" dval) ∧
          pv = (kv.1, JVal.obj (setKey mid "description" (JVal.str dstr))))
        anns props := by
  induction anns with
  | nil => exact ⟨[], rfl, rfl, List.Forall₂.nil⟩
  | cons hd tl ih =>
      obtain ⟨k, v⟩ := hd
      obtain ⟨n, hn⟩ := h (k, v) (List.mem_cons_self _ _)
      obtain ⟨mid, dstr, hmid, hg⟩ := @gpjs_ok k _ dv _ hn
      obtain ⟨props, hp, hkeys, hf⟩ := ih (fun kv hkv => h kv (List.mem_cons_of_mem _ hkv))
      refine ⟨(k, JVal.obj (setKey mid "description" (JVal.str dstr))) :: props, ?_, ?_,
        List.Forall₂.cons ⟨n, mid, dstr, hn, hmid, rfl⟩ hf⟩
      · rw [paramsProps, hg, hp]
        rfl
      · simp [hkeys]

/-- `generate_function_schema` output decomposed into its parts. -/
theorem gfs_decomp {nameArg : Option String} {fnName : String}
    {descArg fnDoc : Option String} {isAsync isMethod : Bool}
    {params : List Param} {s : JVal}
    (h : generate_function_schema nameArg fnName descArg fnDoc isAsync isMethod
      params = .ok s) :
    ∃ props,
      paramsProps
        (if isMethod then
          (get_param_anns params).filter (fun p => p.1 ≠ "self" ∧ p.1 ≠ "cls")
         else get_param_anns params)
        (if isMethod then
          (get_default_values params).filter (fun p => p.1 ≠ "self" ∧ p.1 ≠ "cls")
         else get_default_values params) = .ok props ∧
      s = JVal.obj [("type", .str "function"), ("function", .obj
        (if isAsync then
          setKey [("name", .str (descOr nameArg fnName)),
            ("description", .str (descOr descArg (descOr fnDoc ""))),
            ("parameters", .obj [("type", .str "object"),
              ("properties", .obj props),
              ("required", .arr ((if isMethod then
                  (get_required_params params).filter
                    (fun r => r ≠ "self" ∧ r ≠ "cls")
                else get_required_params params).map JVal.str))])]
            "async" (.bool true)
         else [("name", .str (descOr nameArg fnName)),
            ("description", .str (descOr descArg (descOr fnDoc ""))),
            ("parameters", .obj [("type", .str "object"),
              ("properties", .obj props),
              ("required", .arr ((if isMethod then
                  (get_required_params params).filter
                    (fun r => r ≠ "self" ∧ r ≠ "cls")
                else get_required_params params).map JVal.str))])]))] := by
  unfold generate_function_schema at h
  simp only [] at h
  obtain ⟨pnode, hpn, h2⟩ := except_bind_ok h
  have h3 := except_pure_ok h2
  subst h3
  unfold get_parameters at hpn
  obtain ⟨props, hpp, h4⟩ := except_bind_ok hpn
  have h5 := except_pure_ok h4
  subst h5
  exact ⟨props, hpp, rfl⟩


theorem forall2_mem_left {α β : Type} {R : α → β → Prop} :
    ∀ {l1 : List α} {l2 : List β}, List.Forall₂ R l1 l2 →
      ∀ x ∈ l1, ∃ y ∈ l2, R x y := by
  intro l1 l2 h
  induction h with
  | nil => simp
  | cons hr htail ih =>
      intro x hx
      rcases List.mem_cons.mp hx with h1 | h1
      · subst h1
        exact ⟨_, List.mem_cons_self _ _, hr⟩
      · obtain ⟨y, hy, hry⟩ := ih x h1
        exact ⟨y, List.mem_cons_of_mem _ hy, hry⟩

theorem paramsProps_keys {anns : List (String × Descriptor)} {dv : Node}
    {props : Node} (h : paramsProps anns dv = .ok props) :
    props.map Prod.fst = anns.map Prod.fst := by
  induction anns generalizing props with
  | nil =>
      rw [paramsProps] at h
      have h2 := except_pure_ok h
      subst h2
      rfl
  | cons hd tl ih =>
      obtain ⟨k, v⟩ := hd
      rw [paramsProps] at h
      obtain ⟨n, hn, h2⟩ := except_bind_ok h
      obtain ⟨tlp, htl, h3⟩ := except_bind_ok h2
      have h4 := except_pure_ok h3
      subst h4
      simp [ih htl]

theorem get_param_anns_keys (params : List Param) :
    (get_param_anns params).map Prod.fst =
      (params.filter (fun p => p.pann.isSome)).map Param.name := by
  induction params with
  | nil => rfl
  | cons hd tl ih =>
      cases hp : hd.pann with
      | none =>
          simp only [get_param_anns, List.filterMap_cons, hp, Option.map_none,
            List.filter_cons] at ih ⊢
          simpa [hp] using ih
      | some d =>
          simp only [get_param_anns, List.filterMap_cons, hp, Option.map_some,
            List.filter_cons] at ih ⊢
          simpa [hp] using ih

theorem mem_get_param_anns {params : List Param} {kv : String × Descriptor}
    (h : kv ∈ get_param_anns params) :
    ∃ p ∈ params, p.pann = some kv.2 ∧ kv.1 = p.name := by
  unfold get_param_anns at h
  rw [List.mem_filterMap] at h
  obtain ⟨p, hp, hmap⟩ := h
  cases hpa : p.pann with
  | none => rw [hpa] at hmap; simp at hmap
  | some d =>
      rw [hpa] at hmap
      simp only [Option.map_some'] at hmap
      cases hmap
      exact ⟨p, hp, by rw [hpa], rfl⟩

/-- C2 (amended): schemas the Builder produces from supported,
wellformed, validator-friendly parameter descriptors pass the
`validate_schema` lint. -/
theorem C2_builder_schema_passes_lint
    (nameArg : Option String) (fnName : String) (descArg fnDoc : Option String)
    (isAsync isMethod : Bool) (params : List Param)
    (hgood : ∀ p ∈ params, ∀ d, p.pann = some d →
      Supported d = true ∧ Wf d = true ∧ VFriendly d = true)
    (s : JVal)
    (hs : generate_function_schema nameArg fnName descArg fnDoc isAsync isMethod
      params = .ok s) :
    validate_schema s = .ok true := by
  obtain ⟨props, hpp, hsform⟩ := gfs_decomp hs
  subst hsform
  have hanns : ∀ kv ∈ (if isMethod then
        (get_param_anns params).filter (fun p => p.1 ≠ "self" ∧ p.1 ≠ "cls")
      else get_param_anns params),
      Supported kv.2 = true ∧ Wf kv.2 = true ∧ VFriendly kv.2 = true := by
    intro kv hkv
    have hkv2 : kv ∈ get_param_anns params := by
      by_cases hm : isMethod = true
      · rw [hm, if_pos rfl] at hkv
        exact List.mem_of_mem_filter hkv
      · rw [Bool.not_eq_true] at hm
        rw [hm, if_neg (by simp)] at hkv
        exact hkv
    obtain ⟨p, hp, hpa, _⟩ := mem_get_param_anns hkv2
    exact hgood p hp kv.2 hpa
  have hone : ∀ kv ∈ (if isMethod then
        (get_param_anns params).filter (fun p => p.1 ≠ "self" ∧ p.1 ≠ "cls")
      else get_param_anns params), ∃ n, type2schema kv.2 = .ok n := by
    intro kv hkv
    obtain ⟨h1, h2, _⟩ := hanns kv hkv
    exact t2s_ok _ h1 h2
  obtain ⟨props2, hpp2, hkeys, hf⟩ := paramsProps_ok hone
  rw [hpp] at hpp2
  have hppeq : props2 = props := by
    cases hpp2
    rfl
  subst hppeq
  have hngood : ∀ kv ∈ props2, NGoodVal kv.2 := by
    intro kv hkv
    obtain ⟨x, hx, n, mid, dstr, hn, hmid, hkveq⟩ := forall2_mem_right hf kv hkv
    subst hkveq
    obtain ⟨hsx, hwx, hvx⟩ := hanns x hx
    have hg : NGood n := t2s_ngood x.2 hsx hwx hvx n hn
    have hgmid : NGood mid := by
      rcases hmid with h | ⟨dval, h⟩
      · subst h
        exact hg
      · subst h
        exact NGood_setKey hg _ _ (by decide) (by decide) (by decide) (by decide)
    refine NGoodVal.mk _
      (NGood_setKey hgmid _ _ (by decide) (by decide) (by decide) (by decide)) ?_
    rw [hasKey_setKey]
    simp
  have hcp := check_properties_ok props2 hngood
  cases isAsync with
  | false =>
      simp only [Bool.false_eq_true, if_false]
      rw [validate_schema]
      simp [hasKey, getVal, hcp]
  | true =>
      simp only [if_true]
      rw [validate_schema]
      simp [hasKey, getVal, setKey, hcp]


/-- C2 (counterexample): the Builder's schema for a parameter typed
`List[Union[int, str]]` is rejected by `validate_schema`, because the
`items` node is a `oneOf` without a `type` key. -/
theorem C2_list_of_union_fails_lint :
    generate_function_schema none "process" none (some "doc") false false
      [⟨"value", some (.listOf (.union [.prim .integer, .prim .string])), none⟩] =
      .ok (.obj [("type", .str "function"), ("function", .obj
        [("name", .str "process"), ("description", .str "doc"),
         ("parameters", .obj
           [("type", .str "object"),
            ("properties", .obj [("value", .obj
              [("type", .str "array"),
               ("items", .obj [("oneOf", .arr
                 [.obj [("type", .str "integer")],
                  .obj [("type", .str "string")]])]),
               ("description", .str "value")])]),
            ("required", .arr [.str "value"])])])]) ∧
    validate_schema (.obj [("type", .str "function"), ("function", .obj
        [("name", .str "process"), ("description", .str "doc"),
         ("parameters", .obj
           [("type", .str "object"),
            ("properties", .obj [("value", .obj
              [("type", .str "array"),
               ("items", .obj [("oneOf", .arr
                 [.obj [("type", .str "integer")],
                  .obj [("type", .str "string")]])]),
               ("description", .str "value")])]),
            ("required", .arr [.str "value"])])])]) = .ok false := by
  constructor
  · rfl
  · simp [validate_schema, check_properties, getVal, hasKey]
    rfl

/-- C2 (witness): the amended round-trip at a concrete signature. -/
theorem C2_lint_witness :
    validate_schema (.obj [("type", .str "function"), ("function", .obj
      [("name", .str "f"), ("description", .str "d"),
       ("parameters", .obj
         [("type", .str "object"),
          ("properties", .obj [("a", .obj
            [("type", .str "integer"), ("description", .str "a")])]),
          ("required", .arr [.str "a"])])])]) = .ok true :=
  C2_builder_schema_passes_lint none "f" none (some "d") false false
    [⟨"a", some (.prim .integer), none⟩]
    (by
      intro p hp d hd
      simp only [List.mem_singleton] at hp
      subst hp
      simp only at hd
      cases hd
      exact ⟨rfl, rfl, rfl⟩)
    _ rfl


/-! ### Totality of the response validator on non-union schemas -/

theorem cm_fields_ok {required : List JVal} {props : Node}
    (hvals : ∀ kv ∈ props, ∃ m t pt, kv.2 = JVal.obj m ∧
      getVal m "type" = some (.str t) ∧ typeMappingGet t = .ok pt) :
    ∃ fields, props.mapM (model_field_of_prop required) = .ok fields := by
  induction props with
  | nil => exact ⟨[], rfl⟩
  | cons hd tl ih =>
      obtain ⟨m, t, pt, h1, h2, h3⟩ := hvals hd (List.mem_cons_self _ _)
      obtain ⟨fields, hf⟩ := ih (fun kv hkv => hvals kv (List.mem_cons_of_mem _ hkv))
      have hhd : model_field_of_prop required hd =
          .ok { fname := hd.1, ftype := pt,
                required := required.any (fun v =>
                  match v with
                  | .str t2 => t2 = hd.1
                  | _ => false) : ModelField } := by
        unfold model_field_of_prop
        rw [h1]
        simp [h2, h3, pure, Except.pure, Bind.bind, Except.bind]
      refine ⟨({ fname := hd.1, ftype := pt,
                 required := required.any (fun v =>
                   (match v with
                    | JVal.str t2 => decide (t2 = hd.1)
                    | _ => false)) } : ModelField) :: fields, ?_⟩
      rw [List.mapM_cons, hhd, hf]
      rfl

theorem pyModelInit_no_other_exc (fields : List ModelField) (r : Node) (e : PyExc)
    (h : pyModelInit fields (.obj r) = .error e) :
    ∃ errs, e = .validationError errs := by
  unfold pyModelInit at h
  simp only [] at h
  split at h
  · exact absurd h (by simp [pure, Except.pure])
  · cases h
    exact ⟨_, rfl⟩

/-- `create_model_from_schema` succeeds on every decomposed Builder
schema whose property nodes carry a recognized `type`. -/
theorem create_model_ok (fname fdesc : String) (pprops : Node) (reqv : List JVal)
    (hvals : ∀ kv ∈ pprops, ∃ m t pt, kv.2 = JVal.obj m ∧
      getVal m "type" = some (.str t) ∧ typeMappingGet t = .ok pt)
    (isAsync : Bool) :
    ∃ fields, create_model_from_schema (JVal.obj [("type", .str "function"),
      ("function", .obj (if isAsync then
        setKey [("name", .str fname), ("description", .str fdesc),
          ("parameters", .obj [("type", .str "object"),
            ("properties", .obj pprops), ("required", .arr reqv)])]
          "async" (.bool true)
       else [("name", .str fname), ("description", .str fdesc),
          ("parameters", .obj [("type", .str "object"),
            ("properties", .obj pprops), ("required", .arr reqv)])]))]) =
      .ok fields := by
  obtain ⟨fields, hfields⟩ := @cm_fields_ok reqv _ hvals
  refine ⟨fields, ?_⟩
  cases isAsync with
  | false =>
      simp only [Bool.false_eq_true, if_false]
      have hnav : create_model_from_schema (JVal.obj [("type", .str "function"),
          ("function", .obj [("name", .str fname), ("description", .str fdesc),
            ("parameters", .obj [("type", .str "object"),
              ("properties", .obj pprops), ("required", .arr reqv)])])]) =
          (do
            let fields2 ← pprops.mapM (model_field_of_prop reqv)
            pure fields2 : Except PyExc (List ModelField)) := rfl
      rw [hnav, hfields]
      rfl
  | true =>
      simp only [if_true]
      have hnav : create_model_from_schema (JVal.obj [("type", .str "function"),
          ("function", .obj (setKey [("name", .str fname),
            ("description", .str fdesc),
            ("parameters", .obj [("type", .str "object"),
              ("properties", .obj pprops), ("required", .arr reqv)])]
            "async" (.bool true)))]) =
          (do
            let fields2 ← pprops.mapM (model_field_of_prop reqv)
            pure fields2 : Except PyExc (List ModelField)) := rfl
      rw [hnav, hfields]
      rfl

/-- C4 (amended): for every mapping candidate and every schema the
Builder produces from parameters whose stripped descriptors are
recognized non-`oneOf` shapes, `validate_llm_response` returns a
structured outcome — no exception escapes. -/
theorem C4_validator_total_without_union_params
    (nameArg : Option String) (fnName : String) (descArg fnDoc : Option String)
    (isAsync isMethod : Bool) (params : List Param)
    (hgood : ∀ p ∈ params, ∀ d, p.pann = some d →
      Supported d = true ∧ Wf d = true ∧ producesOneOf (stripAnn d) = false)
    (s : JVal)
    (hs : generate_function_schema nameArg fnName descArg fnDoc isAsync isMethod
      params = .ok s)
    (r : Node) :
    ∃ out, validate_llm_response (.obj r) s = .ok out := by
  obtain ⟨props, hpp, hsform⟩ := gfs_decomp hs
  subst hsform
  have hanns : ∀ kv ∈ (if isMethod then
        (get_param_anns params).filter (fun p => p.1 ≠ "self" ∧ p.1 ≠ "cls")
      else get_param_anns params),
      Supported kv.2 = true ∧ Wf kv.2 = true ∧
        producesOneOf (stripAnn kv.2) = false := by
    intro kv hkv
    have hkv2 : kv ∈ get_param_anns params := by
      by_cases hm : isMethod = true
      · rw [hm, if_pos rfl] at hkv
        exact List.mem_of_mem_filter hkv
      · rw [Bool.not_eq_true] at hm
        rw [hm, if_neg (by simp)] at hkv
        exact hkv
    obtain ⟨p, hp, hpa, _⟩ := mem_get_param_anns hkv2
    exact hgood p hp kv.2 hpa
  have hone : ∀ kv ∈ (if isMethod then
        (get_param_anns params).filter (fun p => p.1 ≠ "self" ∧ p.1 ≠ "cls")
      else get_param_anns params), ∃ n, type2schema kv.2 = .ok n := by
    intro kv hkv
    obtain ⟨h1, h2, _⟩ := hanns kv hkv
    exact t2s_ok _ h1 h2
  obtain ⟨props2, hpp2, hkeys, hf⟩ := paramsProps_ok hone
  rw [hpp] at hpp2
  have hppeq : props2 = props := by
    cases hpp2
    rfl
  subst hppeq
  have hvals : ∀ kv ∈ props2, ∃ m t pt, kv.2 = JVal.obj m ∧
      getVal m "type" = some (.str t) ∧ typeMappingGet t = .ok pt := by
    intro kv hkv
    obtain ⟨x, hx, n, mid, dstr, hn, hmid, hkveq⟩ := forall2_mem_right hf kv hkv
    subst hkveq
    obtain ⟨hsx, hwx, hvx⟩ := hanns x hx
    obtain ⟨⟨t, pt, ht, hpt⟩, ho⟩ := t2s_type_key x.2 hsx hwx hvx n hn
    refine ⟨setKey mid "description" (JVal.str dstr), t, pt, rfl, ?_, hpt⟩
    rw [getVal_setKey]
    simp only [show ("description" = "type") = False by simp, if_false]
    rcases hmid with h | ⟨dval, h⟩
    · subst h
      exact ht
    · subst h
      rw [getVal_setKey]
      simp only [show ("default" = "type") = False by simp, if_false]
      exact ht
  obtain ⟨fields, hcm⟩ := create_model_ok (descOr nameArg fnName)
    (descOr descArg (descOr fnDoc "")) props2
    ((if isMethod then
        (get_required_params params).filter (fun r2 => r2 ≠ "self" ∧ r2 ≠ "cls")
      else get_required_params params).map JVal.str) hvals isAsync
  unfold validate_llm_response
  simp only [Bind.bind, hcm, Except.bind]
  cases hres : pyModelInit fields (.obj r) with
  | ok d => exact ⟨.valid d, rfl⟩
  | error e =>
      obtain ⟨errs, herr⟩ := pyModelInit_no_other_exc fields r e hres
      subst herr
      exact ⟨.invalid errs, rfl⟩


/-- C4 (counterexample): for a union-typed parameter the Builder emits a
`oneOf` property without a `type`; `validate_llm_response` then escapes
with an uncaught `KeyError("type")` instead of returning an outcome. -/
theorem C4_union_param_keyerror :
    generate_function_schema none "f" none (some "doc") false false
      [⟨"value", some (.union [.prim .integer, .prim .string]), none⟩] =
      .ok (.obj [("type", .str "function"), ("function", .obj
        [("name", .str "f"), ("description", .str "doc"),
         ("parameters", .obj
           [("type", .str "object"),
            ("properties", .obj [("value", .obj
              [("oneOf", .arr [.obj [("type", .str "integer")],
                               .obj [("type", .str "string")]]),
               ("description", .str "value")])]),
            ("required", .arr [.str "value"])])])]) ∧
    validate_llm_response (.obj [("value", .int 3)])
      (.obj [("type", .str "function"), ("function", .obj
        [("name", .str "f"), ("description", .str "doc"),
         ("parameters", .obj
           [("type", .str "object"),
            ("properties", .obj [("value", .obj
              [("oneOf", .arr [.obj [("type", .str "integer")],
                               .obj [("type", .str "string")]]),
               ("description", .str "value")])]),
            ("required", .arr [.str "value"])])])]) =
      .error (.keyError "type") := ⟨rfl, rfl⟩

/-- C4 (witness): the amended totality at a concrete signature and
candidate. -/
theorem C4_validator_total_witness :
    ∃ out, validate_llm_response (.obj [("a", .int 5)])
      (.obj [("type", .str "function"), ("function", .obj
        [("name", .str "f"), ("description", .str "d"),
         ("parameters", .obj
           [("type", .str "object"),
            ("properties", .obj [("a", .obj
              [("type", .str "integer"), ("description", .str "a")])]),
            ("required", .arr [.str "a"])])])]) = .ok out :=
  C4_validator_total_without_union_params none "f" none (some "d") false false
    [⟨"a", some (.prim .integer), none⟩]
    (by
      intro p hp d hd
      simp only [List.mem_singleton] at hp
      subst hp
      simp only at hd
      cases hd
      exact ⟨rfl, rfl, rfl⟩)
    _ rfl [("a", .int 5)]


/-- C5 (counterexample): a parameter without a type annotation lands in
`required` but not in `properties`, so `required` is not a subset of the
property keys. -/
theorem C5_unannotated_param_breaks_subset :
    generate_function_schema none "f" none none false false
      [⟨"x", none, none⟩] =
      .ok (.obj [("type", .str "function"), ("function", .obj
        [("name", .str "f"), ("description", .str ""),
         ("parameters", .obj
           [("type", .str "object"), ("properties", .obj []),
            ("required", .arr [.str "x"])])])]) ∧
    ¬ ("x" ∈ (([] : Node).map Prod.fst)) := ⟨rfl, by simp⟩

/-- C5 (amended): when every parameter carries a type annotation, the
emitted `required` is exactly the defaultless parameter names in
declaration order, the property keys are exactly the parameter names, and
`required` is a subset of the property keys. -/
theorem C5_required_exactly_defaultless_and_subset
    (nameArg : Option String) (fnName : String) (descArg fnDoc : Option String)
    (isAsync : Bool) (params : List Param)
    (hann : ∀ p ∈ params, p.pann.isSome = true)
    (s : JVal)
    (hs : generate_function_schema nameArg fnName descArg fnDoc isAsync false
      params = .ok s) :
    ∃ (fnode pnode props : Node),
      s = JVal.obj [("type", .str "function"), ("function", .obj fnode)] ∧
      getVal fnode "parameters" = some (.obj pnode) ∧
      getVal pnode "properties" = some (.obj props) ∧
      getVal pnode "required" = some (.arr
        (((params.filter (fun p => p.dflt.isNone)).map (·.name)).map JVal.str)) ∧
      props.map Prod.fst = params.map (·.name) ∧
      (∀ r ∈ (params.filter (fun p => p.dflt.isNone)).map (·.name),
        r ∈ props.map Prod.fst) := by
  obtain ⟨props, hpp, hsform⟩ := gfs_decomp hs
  subst hsform
  rw [if_neg (by simp)] at hpp
  have hkeys : props.map Prod.fst = params.map (·.name) := by
    rw [paramsProps_keys hpp, get_param_anns_keys]
    have hfe : params.filter (fun p => p.pann.isSome) = params :=
      List.filter_eq_self.mpr (fun p hp => hann p hp)
    rw [hfe]
  have hsub : ∀ r ∈ (params.filter (fun p => p.dflt.isNone)).map (·.name),
      r ∈ props.map Prod.fst := by
    intro r hr
    rw [hkeys]
    rw [List.mem_map] at hr ⊢
    obtain ⟨p, hp, hpr⟩ := hr
    exact ⟨p, List.mem_of_mem_filter hp, hpr⟩
  cases isAsync with
  | false =>
      simp only [Bool.false_eq_true, if_false]
      exact ⟨_, _, props, rfl, rfl, rfl, rfl, hkeys, hsub⟩
  | true =>
      simp only [if_true, Bool.false_eq_true, if_false]
      exact ⟨_, _, props, rfl, rfl, rfl, rfl, hkeys, hsub⟩

/-- Two concrete parameters, the second with a default (used by the C5
witness). -/
def abParams : List Param :=
  [⟨"a", some (.prim .integer), none⟩,
   ⟨"b", some (.prim .string), some (.str "z")⟩]

/-- C5 (witness): the amended claim at a concrete two-parameter
signature, one parameter with a default. -/
theorem C5_required_witness :
    ∃ (fnode pnode props : Node),
      JVal.obj [("type", .str "function"), ("function", .obj
        [("name", .str "g"), ("description", .str ""),
         ("parameters", .obj
           [("type", .str "object"),
            ("properties", .obj
              [("a", .obj [("type", .str "integer"), ("description", .str "a")]),
               ("b", .obj [("type", .str "string"), ("default", .str "z"),
                           ("description", .str "b")])]),
            ("required", .arr [.str "a"])])])] =
        JVal.obj [("type", .str "function"), ("function", .obj fnode)] ∧
      getVal fnode "parameters" = some (.obj pnode) ∧
      getVal pnode "properties" = some (.obj props) ∧
      getVal pnode "required" = some (.arr
        (((abParams.filter (fun p => p.dflt.isNone)).map (·.name)).map JVal.str)) ∧
      props.map Prod.fst = abParams.map (·.name) ∧
      (∀ r ∈ (abParams.filter (fun p => p.dflt.isNone)).map (·.name),
        r ∈ props.map Prod.fst) :=
  C5_required_exactly_defaultless_and_subset none "g" none none false abParams
    (by
      intro p hp
      rcases List.mem_cons.mp hp with h | h
      · subst h
        rfl
      · simp only [abParams, List.mem_singleton] at h
        subst h
        rfl)
    _ rfl

/-- C6: `Optional(inner)` for a concrete non-null inner yields exactly
the inner node with `nullable: true` appended (in either argument
order), never a `oneOf`; and every node built from a supported
wellformed descriptor that carries `nullable` also carries a `type`. -/
theorem C6_optional_nullable_exact
    : (∀ inner : Descriptor, Supported inner = true → Wf inner = true →
        isUnionD inner = false →
        ∃ n, type2schema inner = .ok n ∧
          type2schema (.union [inner, .noneType]) =
            .ok (setKey n "nullable" (.bool true)) ∧
          type2schema (.union [.noneType, inner]) =
            .ok (setKey n "nullable" (.bool true)) ∧
          getVal n "oneOf" = none ∧
          getVal (setKey n "nullable" (.bool true)) "oneOf" = none ∧
          (∃ t, getVal (setKey n "nullable" (.bool true)) "type" =
            some (.str t))) ∧
      (∀ d : Descriptor, Supported d = true → Wf d = true →
        ∀ n, type2schema d = .ok n → nullablePred n = true) := by
  constructor
  · intro inner hs hw hu
    obtain ⟨n, hn⟩ := t2s_ok inner hs hw
    have hpo := producesOneOf_of_not_union hu hw
    obtain ⟨⟨t, pt, ht, hpt⟩, ho⟩ := t2s_type_key inner hs hw hpo n hn
    have hni : isNoneType inner = false := by
      cases inner <;> first | rfl | simp [Supported] at hs
    refine ⟨n, hn, ?_, ?_, ho, ?_, ⟨t, ?_⟩⟩
    · rw [type2schema]
      simp only [isNoneType, if_true]
      rw [hn]
      rfl
    · rw [type2schema, hni]
      simp only [Bool.false_eq_true, if_false, isNoneType, if_true]
      rw [hn]
      rfl
    · rw [getVal_setKey]
      simp [ho]
    · rw [getVal_setKey]
      simp [ht]
  · exact t2s_nullable_top

/-- C6 (witness): `Optional[str]` concretely. -/
theorem C6_optional_nullable_witness :
    ∃ n, type2schema (.prim .string) = .ok n ∧
      type2schema (.union [.prim .string, .noneType]) =
        .ok (setKey n "nullable" (.bool true)) ∧
      type2schema (.union [.noneType, .prim .string]) =
        .ok (setKey n "nullable" (.bool true)) ∧
      getVal n "oneOf" = none ∧
      getVal (setKey n "nullable" (.bool true)) "oneOf" = none ∧
      (∃ t, getVal (setKey n "nullable" (.bool true)) "type" = some (.str t)) :=
  C6_optional_nullable_exact.1 (.prim .string) rfl rfl rfl

/-- C7: attached numeric bound metadata is merged into the built node as
`gt → exclusiveMinimum`, `ge → minimum`, `lt → exclusiveMaximum`,
`le → maximum`; all four coexist, and the spec's closed-range and
exclusive-bound examples come out as stated. -/
theorem C7_numeric_bounds_merge
    : (∀ (m : FieldMeta) (base : Descriptor) (n : Node),
        type2schema base = .ok n →
        type2schema (.ann m base) = .ok (mergeBounds n m.bounds)) ∧
      (∀ (base : Descriptor) (n : Node) (dsc : Option String) (g e l u : Int),
        type2schema base = .ok n →
        ∃ n2, type2schema (.ann ⟨dsc, [.gt g, .ge e, .lt l, .le u]⟩ base) =
            .ok n2 ∧
          getVal n2 "exclusiveMinimum" = some (.int g) ∧
          getVal n2 "minimum" = some (.int e) ∧
          getVal n2 "exclusiveMaximum" = some (.int l) ∧
          getVal n2 "maximum" = some (.int u)) ∧
      (∀ (base : Descriptor) (n : Node) (dsc : Option String) (e u : Int),
        type2schema base = .ok n →
        ∃ n2, type2schema (.ann ⟨dsc, [.ge e, .le u]⟩ base) = .ok n2 ∧
          getVal n2 "minimum" = some (.int e) ∧
          getVal n2 "maximum" = some (.int u)) ∧
      (∀ (base : Descriptor) (n : Node) (dsc : Option String) (g : Int),
        type2schema base = .ok n →
        ∃ n2, type2schema (.ann ⟨dsc, [.gt g]⟩ base) = .ok n2 ∧
          getVal n2 "exclusiveMinimum" = some (.int g)) := by
  have hmain : ∀ (m : FieldMeta) (base : Descriptor) (n : Node),
      type2schema base = .ok n →
      type2schema (.ann m base) = .ok (mergeBounds n m.bounds) := by
    intro m base n h
    rw [type2schema, h]
    rfl
  refine ⟨hmain, ?_, ?_, ?_⟩
  · intro base n dsc g e l u h
    refine ⟨_, hmain ⟨dsc, [.gt g, .ge e, .lt l, .le u]⟩ base n h, ?_, ?_, ?_, ?_⟩ <;>
      simp [mergeBounds, applyBound, getVal_setKey]
  · intro base n dsc e u h
    refine ⟨_, hmain ⟨dsc, [.ge e, .le u]⟩ base n h, ?_, ?_⟩ <;>
      simp [mergeBounds, applyBound, getVal_setKey]
  · intro base n dsc g h
    refine ⟨_, hmain ⟨dsc, [.gt g]⟩ base n h, ?_⟩ <;>
      simp [mergeBounds, applyBound, getVal_setKey]

/-- C7 (witness): bounds on an integer parameter concretely. -/
theorem C7_numeric_bounds_witness :
    ∃ n2, type2schema (.ann ⟨none, [.ge 1, .le 10]⟩ (.prim .integer)) = .ok n2 ∧
      getVal n2 "minimum" = some (.int 1) ∧
      getVal n2 "maximum" = some (.int 10) :=
  C7_numeric_bounds_merge.2.2.1 (.prim .integer) [("type", .str "integer")]
    none 1 10 rfl


/-- C1 (code bug): a bare class that is none of the recognized kinds
falls through the `isinstance(base_type, type)` chain with its
`schema = {}` initializer intact: `type2schema` silently returns the
empty node instead of raising, and the parameter pipeline turns it into
a schema that is nothing but a description.  Only non-class descriptors
(e.g. `Tuple[int, str]`) reach the final `raise TypeError`. -/
theorem C1_bare_class_silently_empty :
    type2schema .rawClass = .ok [] ∧
    type2schema .unsupportedGeneric = .error (.typeError "Unsupported type") ∧
    get_parameter_json_schema "x" .rawClass [] =
      .ok [("description", .str "x")] ∧
    generate_function_schema none "f" none none false false
      [⟨"x", some .rawClass, none⟩] =
      .ok (.obj [("type", .str "function"), ("function", .obj
        [("name", .str "f"), ("description", .str ""),
         ("parameters", .obj
           [("type", .str "object"),
            ("properties", .obj [("x", .obj [("description", .str "x")])]),
            ("required", .arr [.str "x"])])])]) :=
  ⟨rfl, rfl, rfl, rfl⟩

/-- The spec's running example record: required `name : str` and
`age : int` with an inclusive lower bound of `0`, as function
parameters. -/
def personParams : List Param :=
  [⟨"name", some (.ann ⟨some "The name of the user", []⟩ (.prim .string)), none⟩,
   ⟨"age", some (.ann ⟨some "The age of the user", [.ge 0]⟩ (.prim .integer)),
     none⟩]

/-- The schema the Builder emits for `personParams`. -/
def personSchema : JVal :=
  .obj [("type", .str "function"), ("function", .obj
    [("name", .str "person"), ("description", .str "doc"),
     ("parameters", .obj
       [("type", .str "object"),
        ("properties", .obj
          [("name", .obj [("type", .str "string"),
            ("description", .str "The name of the user")]),
           ("age", .obj [("type", .str "integer"), ("minimum", .int 0),
            ("description", .str "The age of the user")])]),
        ("required", .arr [.str "name", .str "age"])])])]

/-- An enum-typed parameter with members red/green/blue. -/
def colorParams : List Param :=
  [⟨"value", some (.enumType ["red", "green", "blue"]), none⟩]

/-- The schema the Builder emits for `colorParams`. -/
def colorSchema : JVal :=
  .obj [("type", .str "function"), ("function", .obj
    [("name", .str "color"), ("description", .str "doc"),
     ("parameters", .obj
       [("type", .str "object"),
        ("properties", .obj
          [("value", .obj [("type", .str "string"),
            ("enum", .arr [.str "red", .str "green", .str "blue"]),
            ("description", .str "value")])]),
        ("required", .arr [.str "value"])])])]

/-- C3 (code bug): `create_model_from_schema` keeps only each property's
`type`, so `validate_llm_response` accepts `age = -1` against a schema
whose `age` carries `minimum 0`, and accepts `"purple"` against an enum
of red/green/blue — the bound and enum violations the claim (and the
repository's own tests) require it to detect are never reported. -/
theorem C3_validator_drops_bounds_and_enum :
    generate_function_schema none "person" none (some "doc") false false
      personParams = .ok personSchema ∧
    validate_llm_response
      (.obj [("name", .str "John"), ("age", .int (-1))]) personSchema =
      .ok (.valid [("name", .str "John"), ("age", .int (-1))]) ∧
    generate_function_schema none "color" none (some "doc") false false
      colorParams = .ok colorSchema ∧
    validate_llm_response (.obj [("value", .str "purple")]) colorSchema =
      .ok (.valid [("value", .str "purple")]) ∧
    validate_llm_response (.obj [("value", .str "red")]) colorSchema =
      .ok (.valid [("value", .str "red")]) :=
  ⟨rfl, rfl, rfl, rfl, rfl⟩

/-- C8: against the built person schema, a candidate supplying both
required fields with conformant values validates successfully with the
normalized data equal to the input, and a candidate missing the required
`name` fails with a `missing` violation located at `name`. -/
theorem C8_record_validation_examples :
    generate_function_schema none "person" none (some "doc") false false
      personParams = .ok personSchema ∧
    validate_llm_response
      (.obj [("name", .str "John"), ("age", .int 30)]) personSchema =
      .ok (.valid [("name", .str "John"), ("age", .int 30)]) ∧
    validate_llm_response (.obj [("age", .int 30)]) personSchema =
      .ok (.invalid [⟨"missing", ["name"], "Field required"⟩]) :=
  ⟨rfl, rfl, rfl⟩

/-- C9: every `enum` key the Builder emits holds a list of strings, and
enum/literal descriptors render exactly as the list of their underlying
values. -/
theorem C9_enum_values_are_strings :
    (∀ d : Descriptor, ∀ n, type2schema d = .ok n → enumPred n = true) ∧
    (∀ vs : List String, type2schema (.enumType vs) =
      .ok [("type", .str "string"), ("enum", .arr (vs.map JVal.str))]) ∧
    (∀ vs : List String, type2schema (.lit vs) =
      .ok [("type", .str "string"), ("enum", .arr (vs.map JVal.str))]) :=
  ⟨t2s_enum_top, fun _ => rfl, fun _ => rfl⟩

/-- C9 (witness): the invariant at the concrete red/green/blue enum. -/
theorem C9_enum_strings_witness :
    enumPred [("type", .str "string"),
      ("enum", .arr [.str "red", .str "green", .str "blue"])] = true :=
  C9_enum_values_are_strings.1 (.enumType ["red", "green", "blue"]) _ rfl

/-- C10: a union of three or more variants containing the null type is
translated to a `oneOf` with one recursively built entry per variant —
including the empty node for the null variant itself — and no `nullable`
key is produced. -/
theorem C10_null_in_multiarm_union_oneof
    (args : List Descriptor)
    (hsup : Supported (.union args) = true) (hwf : Wf (.union args) = true)
    (hlen : 3 ≤ args.length) (hmem : Descriptor.noneType ∈ args) :
    ∃ opts, type2schema (.union args) = .ok [("oneOf", .arr opts)] ∧
      opts.length = args.length ∧
      List.Forall₂ (fun a o => ∃ m, type2schema a = .ok m ∧ o = JVal.obj m)
        args opts ∧
      JVal.obj [] ∈ opts ∧
      getVal [("oneOf", .arr opts)] "nullable" = none := by
  rw [Supported] at hsup
  rw [Wf] at hwf
  simp only [Bool.and_eq_true, decide_eq_true_eq] at hwf
  obtain ⟨⟨hlen2, hdup⟩, hargs⟩ := hwf
  rcases args with _ | ⟨a, _ | ⟨b, _ | ⟨c, rest⟩⟩⟩
  · simp at hlen
  · simp at hlen
  · simp at hlen
  · have hone : ∀ x ∈ a :: b :: c :: rest, ∃ m, type2schema x = .ok m := by
      intro x hx
      by_cases hna : isNoneType x = true
      · cases x <;> simp [isNoneType] at hna
        exact ⟨[], rfl⟩
      · have h1 := SupportedArgs_mem hsup x hx
        have h2 := WfArgs_mem hargs x hx
        rw [Bool.not_eq_true] at hna
        rw [hna] at h1 h2
        simp only [Bool.false_or, Bool.and_eq_true] at h1 h2
        exact t2s_ok _ h1 h2.2
    obtain ⟨l, hl, hf⟩ := schemaList_ok hone
    refine ⟨l, ?_, (List.Forall₂.length_eq hf).symm, hf, ?_, rfl⟩
    · have heq : type2schema (Descriptor.union (a :: b :: c :: rest)) =
          (do
            let l2 ← schemaList (a :: b :: c :: rest)
            pure [("oneOf", JVal.arr l2)] : Except PyExc Node) := rfl
      rw [heq, hl]
      rfl
    · obtain ⟨o, ho, m, hm, hoeq⟩ := forall2_mem_left hf .noneType hmem
      have hme : m = [] := by
        rw [show type2schema Descriptor.noneType = Except.ok [] from rfl] at hm
        exact (Except.ok.inj hm).symm
      subst hme
      subst hoeq
      exact ho

/-- C10 (witness): `Union[int, str, None]` concretely. -/
theorem C10_null_union_witness :
    ∃ opts, type2schema (.union [.prim .integer, .prim .string, .noneType]) =
        .ok [("oneOf", .arr opts)] ∧
      opts.length = [Descriptor.prim .integer, .prim .string, .noneType].length ∧
      List.Forall₂ (fun a o => ∃ m, type2schema a = .ok m ∧ o = JVal.obj m)
        [.prim .integer, .prim .string, .noneType] opts ∧
      JVal.obj [] ∈ opts ∧
      getVal [("oneOf", .arr opts)] "nullable" = none :=
  C10_null_in_multiarm_union_oneof
    [.prim .integer, .prim .string, .noneType] rfl rfl (by decide) (by simp)

end LCB
